import Mathlib

/-!
Verification of the Webpify upload-queue and WebP-conversion code.

The development shallowly embeds the two source modules:

* `imageConverter.ts` — `convertImageToWebP`, modelled with the browser
  primitives (`createImageBitmap`, `getContext`, `toBlob`, `img.decode`)
  abstracted into an explicit environment, and with resource effects
  (decoded bitmaps, closed bitmaps, created/revoked object URLs) tracked.
* `ImageComparison.svelte` — the upload queue (`handleFiles`, `convertAll`,
  `deleteItem`, `clearAll`, `downloadAllZip`, preview selection and the
  preview component's URL-creating effect) as a state machine over
  `QueueState`, and the comparison view's zoom/pan handlers as a state
  machine over `ZoomState`.

Object URLs are modelled as naturals drawn from a counter; JavaScript
numbers are modelled as exact rationals.
-/

namespace Webpify

/-- A browser `File` handle: declared name, declared MIME type, byte size. -/
structure MFile where
  name : String
  type : String
  size : Nat
deriving DecidableEq, Repr

/-- An encoded image `Blob`; only its byte size is observable here. -/
structure Blob where
  size : Nat
deriving DecidableEq, Repr

/-! ### Output-name computation

`convertAll` computes `item.file.name.replace(/\.(jpe?g|png)$/i, '') + '.webp'`.
The regex is anchored at the end of the string, so JavaScript `replace`
(first match only) deletes the leftmost position whose entire tail matches
one of the three extensions, case-insensitively. -/

/-- Lower-case a character list (the `i` flag of the regex). -/
def lowerStr (cs : List Char) : List Char := cs.map Char.toLower

/-- Does the whole remaining character list match `\.(jpe?g|png)$`? -/
def extMatch (cs : List Char) : Bool :=
  decide (lowerStr cs = ".jpg".data ∨ lowerStr cs = ".jpeg".data ∨ lowerStr cs = ".png".data)

/-- JavaScript `name.replace(/\.(jpe?g|png)$/i, '')`: scan left to right for
the first position whose entire tail matches the anchored pattern and delete
that tail. -/
def replaceExt : List Char → List Char
  | [] => []
  | c :: rest => if extMatch (c :: rest) then [] else c :: replaceExt rest

/-- The output name computed in `convertAll` and `downloadAllZip`. -/
def outputNameOf (name : String) : String :=
  String.mk (replaceExt name.data) ++ ".webp"

/-- Spec reading of the output-name rule: the source filename with a single
trailing `.jpg`, `.jpeg`, or `.png` extension (matched case-insensitively)
removed. -/
def stripExtSpec (cs : List Char) : List Char :=
  if ".jpeg".data <:+ lowerStr cs then cs.take (cs.length - 5)
  else if ".jpg".data <:+ lowerStr cs then cs.take (cs.length - 4)
  else if ".png".data <:+ lowerStr cs then cs.take (cs.length - 4)
  else cs

/-- Spec reading of the whole rule: strip the extension, append `.webp`. -/
def outputNameSpec (name : String) : String :=
  String.mk (stripExtSpec name.data) ++ ".webp"

/-! ### The conversion service (`imageConverter.ts`)

`convertImageToWebP` drives browser primitives.  They are abstracted into an
environment, and the function's resource effects are tracked explicitly. -/

/-- A decoded `ImageBitmap`, identified by a tag. -/
structure Bitmap where
  tag : Nat
deriving DecidableEq, Repr

/-- Browser behaviour relevant to one `convertImageToWebP` call:
`createImageBitmap` (a rejection is caught and becomes `none`), whether
`canvas.getContext('2d')` yields a context, the `canvas.toBlob` outcome for
the drawn image at the given quality, and the `img.decode()` outcome for the
fallback path (an `Except.error` carries the rejection's message). -/
structure ConvEnv where
  bitmapOf : MFile → Option Bitmap
  ctxOk : Bool
  toBlobRes : MFile → ℚ → Option Blob
  decodeRes : MFile → Except String Unit

/-- Resource effects of one `convertImageToWebP` call. -/
structure ConvEffects where
  decodedBitmaps : List Bitmap
  closedBitmaps : List Bitmap
  urlsCreated : List Nat
  urlsRevoked : List Nat
deriving DecidableEq, Repr

/-- Model of `convertImageToWebP(file, quality)`.  The primary path decodes a bitmap,
draws it on a canvas and exports; the fallback path loads the file through an
`Image` element via a fresh object URL (numbered 0 here).  Mirrors the source
exactly: `bitmap.close()` runs only after a successful export, and
`URL.revokeObjectURL(img.src)` runs only after a successful fallback export. -/
def convertImageToWebP (env : ConvEnv) (file : MFile) (quality : ℚ) :
    Except String Blob × ConvEffects :=
  match env.bitmapOf file with
  | some bitmap =>
    if env.ctxOk = false then
      (Except.error "Canvas not supported", ⟨[bitmap], [], [], []⟩)
    else
      match env.toBlobRes file quality with
      | some b => (Except.ok b, ⟨[bitmap], [bitmap], [], []⟩)
      | none => (Except.error "Blob conversion failed", ⟨[bitmap], [], [], []⟩)
  | none =>
    match env.decodeRes file with
    | Except.error m => (Except.error m, ⟨[], [], [0], []⟩)
    | Except.ok _ =>
      if env.ctxOk = false then
        (Except.error "Canvas not supported", ⟨[], [], [0], []⟩)
      else
        match env.toBlobRes file quality with
        | some b => (Except.ok b, ⟨[], [], [0], [0]⟩)
        | none => (Except.error "Blob conversion failed", ⟨[], [], [0], []⟩)

/-! ### The upload queue (`ImageComparison.svelte`, page component)

State machine over the item list, the preview selection, and the object-URL
bookkeeping.  URLs are naturals drawn from `nextUrl`; `createdUrls` records
every `URL.createObjectURL` call, `itemUrlsCreated` the subset handed to queue
items (thumbnails and conversion outputs), `revokedUrls` every executed
`URL.revokeObjectURL` call, and `pendingRevokes` revocations scheduled by
`downloadBlob`'s `setTimeout` but not yet run. -/

inductive UploadStatus where
  | queued
  | converting
  | done
  | error
deriving DecidableEq, Repr

structure UploadItem where
  id : Nat
  file : MFile
  status : UploadStatus
  errorMessage : Option String
  outputUrl : Option Nat
  outputBlob : Option Blob
  outputName : Option String
  sizeBefore : Nat
  sizeAfter : Option Nat
  thumbnailUrl : Option Nat
deriving DecidableEq, Repr

structure QueueState where
  items : List UploadItem
  selectedPreview : Option Nat
  quality : ℚ
  nextId : Nat
  nextUrl : Nat
  createdUrls : List Nat
  itemUrlsCreated : List Nat
  revokedUrls : List Nat
  pendingRevokes : List Nat
  previewOrigUrl : Option Nat
  previewWebpUrl : Option Nat
deriving DecidableEq, Repr

def initState : QueueState :=
  { items := [], selectedPreview := none, quality := 4/5, nextId := 0, nextUrl := 0
    createdUrls := [], itemUrlsCreated := [], revokedUrls := [], pendingRevokes := []
    previewOrigUrl := none, previewWebpUrl := none }

/-- The conversion service as observed by the queue: the outcome of
`convertImageToWebP(file, quality)`, where `Except.error (some m)` models a
thrown `Error` with message `m` and `Except.error none` a thrown non-`Error`
value. -/
def ConvOracle : Type := MFile → ℚ → Except (Option String) Blob

/-- Message extraction: `err instanceof Error ? err.message : 'Failed to convert to WebP.'` -/
def msgOfThrown : Option String → String
  | some m => m
  | none => "Failed to convert to WebP."

/-- Observable conversion-service activity during a queue operation. -/
inductive ConvEvent where
  | markedConverting (id : Nat)
  | convInvoked (file : MFile)
deriving DecidableEq, Repr

def unsupportedTypeMsg : String := "Unsupported file type. Please upload JPEG or PNG."

/-- Acceptance test `acceptedTypes.has(file.type)` for `new Set(['image/jpeg', 'image/png'])`. -/
def acceptedType (f : MFile) : Bool :=
  f.type == "image/jpeg" || f.type == "image/png"

structure NewFilesOut where
  newItems : List UploadItem
  nextId : Nat
  nextUrl : Nat
  newUrls : List Nat
deriving Repr

/-- The `for` loop of `handleFiles`: one item per incoming file; rejected files
become `error` items with no thumbnail, accepted files become `queued` items
with an eagerly created thumbnail URL. -/
def handleFilesGo : List MFile → Nat → Nat → NewFilesOut
  | [], nid, nurl => { newItems := [], nextId := nid, nextUrl := nurl, newUrls := [] }
  | f :: fs, nid, nurl =>
    if acceptedType f then
      let o := handleFilesGo fs (nid + 1) (nurl + 1)
      { newItems :=
          { id := nid, file := f, status := UploadStatus.queued, errorMessage := none
            outputUrl := none, outputBlob := none, outputName := none
            sizeBefore := f.size, sizeAfter := none, thumbnailUrl := some nurl } :: o.newItems
        nextId := o.nextId, nextUrl := o.nextUrl, newUrls := nurl :: o.newUrls }
    else
      let o := handleFilesGo fs (nid + 1) nurl
      { newItems :=
          { id := nid, file := f, status := UploadStatus.error,
            errorMessage := some unsupportedTypeMsg
            outputUrl := none, outputBlob := none, outputName := none
            sizeBefore := f.size, sizeAfter := none, thumbnailUrl := none } :: o.newItems
        nextId := o.nextId, nextUrl := o.nextUrl, newUrls := o.newUrls }

/-- Model of `handleFiles`: classify and append the new items, then (debounced, and
only when nothing is selected) auto-select the first non-error new item. -/
def handleFiles (files : List MFile) (st : QueueState) : QueueState :=
  let o := handleFilesGo files st.nextId st.nextUrl
  let sel :=
    if st.selectedPreview = none ∧ o.newItems ≠ [] then
      match o.newItems.find? (fun it => decide (it.status ≠ UploadStatus.error)) with
      | some it => some it.id
      | none => st.selectedPreview
    else st.selectedPreview
  { st with
    items := st.items ++ o.newItems, selectedPreview := sel
    nextId := o.nextId, nextUrl := o.nextUrl
    createdUrls := st.createdUrls ++ o.newUrls
    itemUrlsCreated := st.itemUrlsCreated ++ o.newUrls }

/-- Skip test `if (item.status !== 'queued' && item.status !== 'error') continue;` of the batch loop. -/
def shouldProcess (it : UploadItem) : Bool :=
  it.status == UploadStatus.queued || it.status == UploadStatus.error

structure ConvAllOut where
  items : List UploadItem
  nextUrl : Nat
  newUrls : List Nat
  trace : List ConvEvent
deriving Repr

/-- The `for` loop of `convertAll`: sequential, in list order.  Each item in
`queued` or `error` status is marked `converting`, the service is invoked, and
the item transitions to `done` (output populated, fresh output URL) or back to
`error` (failure message stored). -/
def convertAllGo (conv : ConvOracle) (q : ℚ) : List UploadItem → Nat → ConvAllOut
  | [], n => { items := [], nextUrl := n, newUrls := [], trace := [] }
  | it :: rest, n =>
    if shouldProcess it then
      match conv it.file q with
      | Except.ok b =>
        let o := convertAllGo conv q rest (n + 1)
        { items :=
            { it with
              status := UploadStatus.done, outputBlob := some b
              outputUrl := some n, outputName := some (outputNameOf it.file.name)
              sizeAfter := some b.size } :: o.items
          nextUrl := o.nextUrl, newUrls := n :: o.newUrls
          trace := ConvEvent.markedConverting it.id :: ConvEvent.convInvoked it.file :: o.trace }
      | Except.error e =>
        let o := convertAllGo conv q rest n
        { items :=
            { it with
              status := UploadStatus.error
              errorMessage := some (msgOfThrown e) } :: o.items
          nextUrl := o.nextUrl, newUrls := o.newUrls
          trace := ConvEvent.markedConverting it.id :: ConvEvent.convInvoked it.file :: o.trace }
    else
      let o := convertAllGo conv q rest n
      { items := it :: o.items, nextUrl := o.nextUrl, newUrls := o.newUrls, trace := o.trace }

/-- Model of `convertAll` on the session state, also returning the service activity. -/
def convertAll (conv : ConvOracle) (st : QueueState) : QueueState × List ConvEvent :=
  let o := convertAllGo conv st.quality st.items st.nextUrl
  ({ st with
     items := o.items, nextUrl := o.nextUrl
     createdUrls := st.createdUrls ++ o.newUrls
     itemUrlsCreated := st.itemUrlsCreated ++ o.newUrls }, o.trace)

/-- The URLs held by one item, in the order `deleteItem`/`clearAll` revoke
them (output first, then thumbnail). -/
def itemUrls (it : UploadItem) : List Nat :=
  it.outputUrl.toList ++ it.thumbnailUrl.toList

/-- Model of `deleteItem(id)`: revoke the item's URLs, fix up the preview selection if
the deleted item was selected (next non-error remaining item, or none), and
remove the item. -/
def deleteItem (id : Nat) (st : QueueState) : QueueState :=
  match st.items.findIdx? (fun it => it.id == id) with
  | none => st
  | some idx =>
    match st.items[idx]? with
    | none => st
    | some it =>
      let remaining := st.items.eraseIdx idx
      let sel :=
        if st.selectedPreview = some id then
          (remaining.find? (fun j => decide (j.status ≠ UploadStatus.error))).map UploadItem.id
        else st.selectedPreview
      { st with
        items := remaining, selectedPreview := sel
        revokedUrls := st.revokedUrls ++ itemUrls it }

/-- Model of `clearAll`: revoke every held item URL, empty the queue, clear the preview
selection.  Clearing the selection unmounts the preview component, whose
teardown revokes its current original/WebP URLs; that cleanup is folded in
here (the sequential composition of `clearAll` and the unmount effect). -/
def clearAll (st : QueueState) : QueueState :=
  { st with
    items := [], selectedPreview := none
    revokedUrls := st.revokedUrls ++ st.items.flatMap itemUrls
      ++ st.previewOrigUrl.toList ++ st.previewWebpUrl.toList
    previewOrigUrl := none, previewWebpUrl := none }

/-- The `zip.file` calls of `downloadAllZip`, in loop order: one entry per
item in `done` status with an output blob, named by its output name. -/
def zipEntriesGo : List UploadItem → List (String × Blob)
  | [] => []
  | it :: rest =>
    if it.status = UploadStatus.done then
      match it.outputBlob with
      | some b => (it.outputName.getD (outputNameOf it.file.name), b) :: zipEntriesGo rest
      | none => zipEntriesGo rest
    else zipEntriesGo rest

/-- Model of `downloadAllZip`: build the archive entries; if none, return with no
archive and no download.  Otherwise generate the archive and trigger
`downloadBlob`, which creates a transient URL and schedules its revocation. -/
def downloadAllZip (st : QueueState) : QueueState × Option (List (String × Blob)) :=
  let entries := zipEntriesGo st.items
  if entries.isEmpty then (st, none)
  else
    ({ st with
       nextUrl := st.nextUrl + 1
       createdUrls := st.createdUrls ++ [st.nextUrl]
       pendingRevokes := st.pendingRevokes ++ [st.nextUrl] }, some entries)

/-- A click on an item's thumbnail:
`updatePreviewItemDebounced(item.status !== 'error' ? item : null)`. -/
def selectPreviewItem (id : Nat) (st : QueueState) : QueueState :=
  match st.items.find? (fun it => it.id == id) with
  | none => st
  | some it =>
    { st with selectedPreview :=
        if it.status = UploadStatus.error then none else some it.id }

/-- One run of the preview component's URL-creating `$effect` for the
currently selected item, with the outcome of its `convertImageToWebP` call
given as `res` (`some blob` on success).  A fresh original-image URL is always
created and the previous one is NOT revoked (the effect has no cleanup); on
success a fresh WebP preview URL is created (again without revoking the
previous one) and `onWebPGenerated` stores the blob on the selected item,
revoking the item's previous output URL only when an output blob was already
present, then creating a fresh output URL for it. -/
def previewRun (res : Option Blob) (st : QueueState) : QueueState × List ConvEvent :=
  match st.selectedPreview with
  | none => (st, [])
  | some sid =>
    match st.items.find? (fun it => it.id == sid) with
    | none => (st, [])
    | some it =>
      let origU := st.nextUrl
      match res with
      | none =>
        ({ st with
           nextUrl := origU + 1, createdUrls := st.createdUrls ++ [origU]
           previewOrigUrl := some origU }, [ConvEvent.convInvoked it.file])
      | some b =>
        let webpU := origU + 1
        let outU := origU + 2
        let oldRevoke :=
          match it.outputBlob, it.outputUrl with
          | some _, some u => [u]
          | _, _ => []
        ({ st with
           items := st.items.map (fun j =>
             if j.id = sid then
               { j with
                 sizeAfter := some b.size, outputBlob := some b
                 outputUrl := some outU, outputName := some (outputNameOf j.file.name) }
             else j)
           nextUrl := origU + 3
           createdUrls := st.createdUrls ++ [origU, webpU, outU]
           itemUrlsCreated := st.itemUrlsCreated ++ [outU]
           revokedUrls := st.revokedUrls ++ oldRevoke
           previewOrigUrl := some origU, previewWebpUrl := some webpU },
         [ConvEvent.convInvoked it.file])

/-- Queue-session operations. -/
inductive Op where
  | files (fs : List MFile)
  | convert (conv : ConvOracle)
  | delete (id : Nat)
  | clear
  | zipAll
  | select (id : Nat)
  | preview (res : Option Blob)

def isPreviewOp : Op → Bool
  | Op.preview _ => true
  | _ => false

/-- One session step, returning the new state and the conversion-service
activity it caused. -/
def step (op : Op) (st : QueueState) : QueueState × List ConvEvent :=
  match op with
  | Op.files fs => (handleFiles fs st, [])
  | Op.convert conv => convertAll conv st
  | Op.delete id => (deleteItem id st, [])
  | Op.clear => (clearAll st, [])
  | Op.zipAll => ((downloadAllZip st).1, [])
  | Op.select id => (selectPreviewItem id st, [])
  | Op.preview res => previewRun res st

/-- Run a session: fold `step` over the operations, concatenating traces. -/
def run : List Op → QueueState → QueueState × List ConvEvent
  | [], st => (st, [])
  | op :: ops, st =>
    let p := step op st
    let r := run ops p.1
    (r.1, p.2 ++ r.2)

/-! ### The comparison view's zoom and pan (`ImageComparison.svelte`)

`scale`, `panX`, `panY`, `isPanning`, `lastPanX`, `lastPanY`,
`hasInteracted`, with the wheel, keyboard and mouse handlers as events. -/

structure ZoomState where
  scale : ℚ
  panX : ℚ
  panY : ℚ
  isPanning : Bool
  lastPanX : ℚ
  lastPanY : ℚ
  hasInteracted : Bool
deriving DecidableEq, Repr

def initZoom : ZoomState :=
  { scale := 1, panX := 0, panY := 0, isPanning := false,
    lastPanX := 0, lastPanY := 0, hasInteracted := false }

/-- Events handled by the comparison view.  `wheel` carries whether a zoom
modifier was held and the (sign-relevant) `deltaY`; mouse events carry client
coordinates; `keyReset` is the Enter/Space reset path (`resetZoom`). -/
inductive ZoomEvent where
  | wheel (intentional : Bool) (deltaY : ℚ)
  | keyPlus
  | keyMinus
  | keyReset
  | arrowLeft
  | arrowRight
  | arrowUp
  | arrowDown
  | imageMouseDown (onDivider : Bool) (x y : ℚ)
  | imageMouseMove (x y : ℚ)
  | imageMouseUp

/-- Model of `resetZoom()`. -/
def resetZoom (s : ZoomState) : ZoomState :=
  { s with scale := 1, panX := 0, panY := 0 }

/-- Model of `handleWheel`: an intentional zoom marks interaction, clamps the scaled
value to [1/2, 3], and when the value actually changed and landed on exactly
1 also resets the pan. -/
def handleWheel (intentional : Bool) (deltaY : ℚ) (s : ZoomState) : ZoomState :=
  if intentional then
    if max (1/2) (min 3 (s.scale * (if -deltaY > 0 then (11/10 : ℚ) else 9/10))) ≠ s.scale then
      if max (1/2) (min 3 (s.scale * (if -deltaY > 0 then (11/10 : ℚ) else 9/10))) = 1 then
        { s with
          hasInteracted := true
          scale := max (1/2) (min 3 (s.scale * (if -deltaY > 0 then (11/10 : ℚ) else 9/10)))
          panX := 0, panY := 0 }
      else
        { s with
          hasInteracted := true
          scale := max (1/2) (min 3 (s.scale * (if -deltaY > 0 then (11/10 : ℚ) else 9/10))) }
    else
      { s with hasInteracted := true }
  else s

/-- Model of `handleImageMouseDown`: a click on the divider is ignored; otherwise the
interaction is marked, and panning starts only when zoomed in past 1. -/
def handleImageMouseDown (onDivider : Bool) (x y : ℚ) (s : ZoomState) : ZoomState :=
  if onDivider then s
  else if s.scale ≤ 1 then { s with hasInteracted := true }
  else
    { s with
      hasInteracted := true, isPanning := true, lastPanX := x, lastPanY := y }

/-- Model of `handleImageMouseMove`. -/
def handleImageMouseMove (x y : ℚ) (s : ZoomState) : ZoomState :=
  if s.isPanning then
    { s with
      panX := s.panX + (x - s.lastPanX), panY := s.panY + (y - s.lastPanY)
      lastPanX := x, lastPanY := y }
  else s

/-- One step of the view's event handling, mirroring `handleWheel`,
`handleKeyDown` and the image mouse handlers. -/
def zoomStep (e : ZoomEvent) (s : ZoomState) : ZoomState :=
  match e with
  | ZoomEvent.wheel intentional deltaY => handleWheel intentional deltaY s
  | ZoomEvent.keyPlus =>
    { s with hasInteracted := true, scale := min 3 (s.scale * (11/10)) }
  | ZoomEvent.keyMinus =>
    if max (1/2) (s.scale * (9/10)) = 1 then
      { s with
        hasInteracted := true, scale := max (1/2) (s.scale * (9/10))
        panX := 0, panY := 0 }
    else
      { s with hasInteracted := true, scale := max (1/2) (s.scale * (9/10)) }
  | ZoomEvent.keyReset => resetZoom { s with hasInteracted := true }
  | ZoomEvent.arrowLeft =>
    if s.scale > 1 then { s with hasInteracted := true, panX := s.panX + 20 }
    else { s with hasInteracted := true }
  | ZoomEvent.arrowRight =>
    if s.scale > 1 then { s with hasInteracted := true, panX := s.panX - 20 }
    else { s with hasInteracted := true }
  | ZoomEvent.arrowUp =>
    if s.scale > 1 then { s with hasInteracted := true, panY := s.panY + 20 }
    else { s with hasInteracted := true }
  | ZoomEvent.arrowDown =>
    if s.scale > 1 then { s with hasInteracted := true, panY := s.panY - 20 }
    else { s with hasInteracted := true }
  | ZoomEvent.imageMouseDown onDivider x y => handleImageMouseDown onDivider x y s
  | ZoomEvent.imageMouseMove x y => handleImageMouseMove x y s
  | ZoomEvent.imageMouseUp => { s with isPanning := false }

/-- Run a sequence of view events. -/
def zoomRun : List ZoomEvent → ZoomState → ZoomState
  | [], s => s
  | e :: es, s => zoomRun es (zoomStep e s)

/-- The zoom values reachable by the handlers: products of the two zoom
factors, possibly rebased at a clamp bound (3 or 1/2). -/
def ScaleReach (q : ℚ) : Prop :=
  ∃ a b : ℕ,
    q = (11/10 : ℚ) ^ a * (9/10 : ℚ) ^ b ∨
    q = 3 * ((11/10 : ℚ) ^ a * (9/10 : ℚ) ^ b) ∨
    q = (1/2 : ℚ) * ((11/10 : ℚ) ^ a * (9/10 : ℚ) ^ b)

/-! ### Characterizations and sample inputs used by the theorems -/

/-- Predicate form of `item.status === 'done' && item.outputBlob`. -/
def doneWithBlob (it : UploadItem) : Bool :=
  decide (it.status = UploadStatus.done) && it.outputBlob.isSome

/-- The archive entry name for an item, as `downloadAllZip` computes it. -/
def zipName (it : UploadItem) : String :=
  it.outputName.getD (outputNameOf it.file.name)

/-- A well-formed conversion oracle: every thrown `Error` carries a non-empty
message (true of both errors raised inside `convertImageToWebP` itself). -/
def GoodOracle (conv : ConvOracle) : Prop :=
  ∀ f q m, conv f q = Except.error (some m) → m ≠ ""

/-- All conversion oracles appearing in a session are well-formed. -/
def GoodOps (ops : List Op) : Prop :=
  ∀ conv, Op.convert conv ∈ ops → GoodOracle conv

/-- C3's per-item property: a `done` item has an output blob, an output URL
and a non-empty output name; an `error` item has a non-empty message. -/
def ItemProp (it : UploadItem) : Prop :=
  (it.status = UploadStatus.done →
    it.outputBlob.isSome = true ∧ it.outputUrl.isSome = true ∧
    ∃ s, it.outputName = some s ∧ s ≠ "") ∧
  (it.status = UploadStatus.error → ∃ m, it.errorMessage = some m ∧ m ≠ "")

/-- C3's invariant over a queue state. -/
def ItemsInvariant (st : QueueState) : Prop :=
  ∀ it ∈ st.items, ItemProp it

/-- The object URLs currently held by queue items, in revocation order. -/
def heldUrls (st : QueueState) : List Nat := st.items.flatMap itemUrls

/-- C4's bookkeeping invariant (for sessions without preview activity): item
URLs are allocated below `nextUrl`; the URLs held by items are recorded,
pairwise distinct, and not yet revoked; every recorded item URL no longer
held has been revoked exactly once; revocations stay below `nextUrl`; the
preview holds no URLs; and only `done` items hold an output URL. -/
def UrlInv (st : QueueState) : Prop :=
  (∀ u ∈ st.itemUrlsCreated, u < st.nextUrl) ∧
  (∀ u ∈ heldUrls st, u ∈ st.itemUrlsCreated) ∧
  (∀ u : Nat, (heldUrls st).count u ≤ 1) ∧
  (∀ u ∈ heldUrls st, st.revokedUrls.count u = 0) ∧
  (∀ u ∈ st.itemUrlsCreated, u ∉ heldUrls st → st.revokedUrls.count u = 1) ∧
  (∀ u ∈ st.revokedUrls, u < st.nextUrl) ∧
  st.previewOrigUrl = none ∧ st.previewWebpUrl = none ∧
  (∀ it ∈ st.items, it.status ≠ UploadStatus.done → it.outputUrl = none)

/-- Sample accepted JPEG file. -/
def fileA : MFile := { name := "a.jpg", type := "image/jpeg", size := 100 }

/-- Sample accepted PNG file. -/
def fileB : MFile := { name := "b.png", type := "image/png", size := 200 }

/-- Sample rejected (non-JPEG/PNG) file. -/
def fileG : MFile := { name := "anim.gif", type := "image/gif", size := 300 }

/-- Sample oracle: every conversion succeeds with a 10-byte blob. -/
def convOk : ConvOracle := fun _ _ => Except.ok { size := 10 }

/-- Sample `done` item. -/
def itemDoneW : UploadItem :=
  { id := 0, file := fileA, status := UploadStatus.done, errorMessage := none,
    outputUrl := some 10, outputBlob := some { size := 3 }, outputName := some "a.webp",
    sizeBefore := 100, sizeAfter := some 3, thumbnailUrl := some 11 }

/-- Sample `queued` item. -/
def itemQueuedW : UploadItem :=
  { id := 1, file := fileB, status := UploadStatus.queued, errorMessage := none,
    outputUrl := none, outputBlob := none, outputName := none,
    sizeBefore := 200, sizeAfter := none, thumbnailUrl := some 12 }

/-- Sample queue state with a `done` item selected for preview and a `queued`
item behind it. -/
def stateW : QueueState :=
  { items := [itemDoneW, itemQueuedW], selectedPreview := some 0, quality := 4/5,
    nextId := 2, nextUrl := 13, createdUrls := [10, 11, 12],
    itemUrlsCreated := [10, 11, 12], revokedUrls := [], pendingRevokes := [],
    previewOrigUrl := none, previewWebpUrl := none }

end Webpify

namespace Webpify

theorem lowerStr_cons (c : Char) (cs : List Char) :
    lowerStr (c :: cs) = c.toLower :: lowerStr cs := rfl

theorem length_lowerStr (cs : List Char) : (lowerStr cs).length = cs.length := by
  simp [lowerStr]

/-- helper: on a full match, `stripExtSpec` deletes everything. -/
theorem stripExtSpec_of_extMatch (cs : List Char) (h : extMatch cs = true) :
    stripExtSpec cs = [] := by
  have h' := of_decide_eq_true h
  rcases h' with h1 | h1 | h1
  · have hlen4 : cs.length = 4 := by
      have h2 := congrArg List.length h1
      rw [length_lowerStr] at h2
      simpa using h2
    have hjpeg : ¬ (".jpeg".data <:+ lowerStr cs) := by
      intro hsuf
      have hlen := hsuf.length_le
      rw [length_lowerStr, hlen4] at hlen
      simp at hlen
    have hjpg : ".jpg".data <:+ lowerStr cs := by
      rw [h1]
    rw [stripExtSpec, if_neg hjpeg, if_pos hjpg, hlen4]
    simp
  · have hlen5 : cs.length = 5 := by
      have h2 := congrArg List.length h1
      rw [length_lowerStr] at h2
      simpa using h2
    have hjpeg : ".jpeg".data <:+ lowerStr cs := by
      rw [h1]
    rw [stripExtSpec, if_pos hjpeg, hlen5]
    simp
  · have hlen4 : cs.length = 4 := by
      have h2 := congrArg List.length h1
      rw [length_lowerStr] at h2
      simpa using h2
    have hjpeg : ¬ (".jpeg".data <:+ lowerStr cs) := by
      intro hsuf
      have hlen := hsuf.length_le
      rw [length_lowerStr, hlen4] at hlen
      simp at hlen
    have hjpg : ¬ (".jpg".data <:+ lowerStr cs) := by
      intro hsuf
      rw [h1] at hsuf
      have h2 := hsuf.eq_of_length (by decide)
      exact absurd h2 (by decide)
    have hpng : ".png".data <:+ lowerStr cs := by
      rw [h1]
    rw [stripExtSpec, if_neg hjpeg, if_neg hjpg, if_pos hpng, hlen4]
    simp

/-- helper: a suffix test on `c :: rest` reduces to the same test on `rest`
when the whole of `c :: rest` is not itself equal to the suffix. -/
theorem suffix_lower_cons (c : Char) (rest : List Char) (suf : List Char)
    (hne : lowerStr (c :: rest) ≠ suf) :
    (suf <:+ lowerStr (c :: rest)) ↔ (suf <:+ lowerStr rest) := by
  rw [lowerStr_cons]
  constructor
  · intro hsuf
    rcases List.suffix_cons_iff.mp hsuf with heq | hsuf'
    · exact absurd (by rw [lowerStr_cons]; exact heq.symm) hne
    · exact hsuf'
  · intro h
    exact h.trans (List.suffix_cons c.toLower (lowerStr rest))

/-- helper: `replaceExt` agrees with the spec-side strip on every input. -/
theorem replaceExt_eq_stripExtSpec (cs : List Char) :
    replaceExt cs = stripExtSpec cs := by
  induction cs with
  | nil => rfl
  | cons c rest ih =>
    by_cases hm : extMatch (c :: rest) = true
    · rw [replaceExt, if_pos hm, stripExtSpec_of_extMatch _ hm]
    · have hm' : extMatch (c :: rest) = false := by
        cases h : extMatch (c :: rest)
        · rfl
        · exact absurd h hm
      rw [replaceExt, if_neg (by simp [hm'])]
      have hne := of_decide_eq_false hm'
      push_neg at hne
      obtain ⟨h1, h2, h3⟩ := hne
      rw [ih]
      show c :: stripExtSpec rest = stripExtSpec (c :: rest)
      unfold stripExtSpec
      simp only [suffix_lower_cons c rest ".jpeg".data h2,
        suffix_lower_cons c rest ".jpg".data h1,
        suffix_lower_cons c rest ".png".data h3]
      split_ifs with hjpeg hjpg hpng
      · have hlen : 5 ≤ rest.length := by
          have h4 := hjpeg.length_le
          rw [length_lowerStr] at h4
          simpa using h4
        simp only [List.length_cons]
        rw [show rest.length + 1 - 5 = (rest.length - 5) + 1 from by omega, List.take_succ_cons]
      · have hlen : 4 ≤ rest.length := by
          have h4 := hjpg.length_le
          rw [length_lowerStr] at h4
          simpa using h4
        simp only [List.length_cons]
        rw [show rest.length + 1 - 4 = (rest.length - 4) + 1 from by omega, List.take_succ_cons]
      · have hlen : 4 ≤ rest.length := by
          have h4 := hpng.length_le
          rw [length_lowerStr] at h4
          simpa using h4
        simp only [List.length_cons]
        rw [show rest.length + 1 - 4 = (rest.length - 4) + 1 from by omega, List.take_succ_cons]
      · rfl

/-- C8: the computed output filename equals the source filename with a single
trailing `.jpg`, `.jpeg`, or `.png` extension (matched case-insensitively)
removed and `.webp` appended. -/
theorem outputName_refines_spec (name : String) :
    outputNameOf name = outputNameSpec name := by
  unfold outputNameOf outputNameSpec
  rw [replaceExt_eq_stripExtSpec]

/-- C5 (code bug): `convertImageToWebP` does NOT release its temporary
resources on failure.  With a decodable bitmap but no 2d context, the call
throws "Canvas not supported" while the decoded bitmap is never closed; with
no bitmap and a failing decode, the fallback path throws while the object URL
it created is never revoked.  On the success paths the resources ARE
released. -/
theorem convertImageToWebP_failure_leaks :
    (let envA : ConvEnv :=
      { bitmapOf := fun _ => some { tag := 0 }, ctxOk := false,
        toBlobRes := fun _ _ => none, decodeRes := fun _ => Except.ok () }
     (convertImageToWebP envA fileA (4/5)).1 = Except.error "Canvas not supported" ∧
     (convertImageToWebP envA fileA (4/5)).2.decodedBitmaps = [{ tag := 0 }] ∧
     (convertImageToWebP envA fileA (4/5)).2.closedBitmaps = []) ∧
    (let envB : ConvEnv :=
      { bitmapOf := fun _ => none, ctxOk := true,
        toBlobRes := fun _ _ => none, decodeRes := fun _ => Except.error "decode failed" }
     (convertImageToWebP envB fileA (4/5)).1 = Except.error "decode failed" ∧
     (convertImageToWebP envB fileA (4/5)).2.urlsCreated = [0] ∧
     (convertImageToWebP envB fileA (4/5)).2.urlsRevoked = []) ∧
    (let envC : ConvEnv :=
      { bitmapOf := fun _ => some { tag := 0 }, ctxOk := true,
        toBlobRes := fun _ _ => some { size := 10 }, decodeRes := fun _ => Except.ok () }
     (convertImageToWebP envC fileA (4/5)).2.closedBitmaps = [{ tag := 0 }]) ∧
    (let envD : ConvEnv :=
      { bitmapOf := fun _ => none, ctxOk := true,
        toBlobRes := fun _ _ => some { size := 10 }, decodeRes := fun _ => Except.ok () }
     (convertImageToWebP envD fileA (4/5)).2.urlsRevoked = [0]) := by
  exact ⟨⟨rfl, rfl, rfl⟩, ⟨rfl, rfl, rfl⟩, rfl, rfl⟩

/-- C2 counterexample: a file with a rejected media type becomes an `error`
item with the documented message and `handleFiles` converts nothing — but a
later `convertAll` retries `error` items, so the conversion service IS
invoked for the rejected file, refuting "no conversion is ever invoked for
that item". -/
theorem handleFiles_rejected_retry_counterexample :
    ((run [Op.files [fileG]] initState).1.items.map
        (fun it => (it.status, it.errorMessage)) =
      [(UploadStatus.error, some unsupportedTypeMsg)]) ∧
    (run [Op.files [fileG]] initState).2 = [] ∧
    ConvEvent.convInvoked fileG ∈ (run [Op.files [fileG], Op.convert convOk] initState).2 := by
  decide

/-- C4 counterexample: after a session in which the preview effect ran for two
different source files, `clearAll` leaves the queue empty and the preview
cleared, yet the first preview's original-image object URL (URL 2 of the
session) was created and never revoked — not "revoked exactly once". -/
theorem clearAll_unrevoked_url_counterexample :
    (let fin := (run [Op.files [fileA, fileB], Op.preview (some { size := 7 }),
        Op.select 1, Op.preview (some { size := 8 }), Op.clear] initState).1
     fin.items = [] ∧ fin.selectedPreview = none ∧
     2 ∈ fin.createdUrls ∧ fin.revokedUrls.count 2 = 0) := by
  decide

theorem shouldProcess_iff (it : UploadItem) :
    shouldProcess it = true ↔
      (it.status = UploadStatus.queued ∨ it.status = UploadStatus.error) := by
  cases h : it.status <;> simp [shouldProcess, h]

theorem shouldProcess_eq_false_iff (it : UploadItem) :
    shouldProcess it = false ↔
      (it.status = UploadStatus.converting ∨ it.status = UploadStatus.done) := by
  cases h : it.status <;> simp [shouldProcess, h]

theorem convertAllGo_length (conv : ConvOracle) (q : ℚ) :
    ∀ (l : List UploadItem) (n : Nat), (convertAllGo conv q l n).items.length = l.length := by
  intro l
  induction l with
  | nil => intro n; rfl
  | cons it rest ih =>
    intro n
    by_cases hp : shouldProcess it = true
    · rcases hconv : conv it.file q with e | b
      · simp [convertAllGo, hp, hconv, ih]
      · simp [convertAllGo, hp, hconv, ih]
    · simp [convertAllGo, hp, ih]

theorem convertAllGo_trace (conv : ConvOracle) (q : ℚ) :
    ∀ (l : List UploadItem) (n : Nat),
      (convertAllGo conv q l n).trace = l.flatMap (fun j =>
        if shouldProcess j then
          [ConvEvent.markedConverting j.id, ConvEvent.convInvoked j.file]
        else []) := by
  intro l
  induction l with
  | nil => intro n; rfl
  | cons it rest ih =>
    intro n
    by_cases hp : shouldProcess it = true
    · rcases hconv : conv it.file q with e | b
      · simp [convertAllGo, hp, hconv, ih]
      · simp [convertAllGo, hp, hconv, ih]
    · simp [convertAllGo, hp, ih]

theorem convertAllGo_get (conv : ConvOracle) (q : ℚ) :
    ∀ (l : List UploadItem) (n i : Nat) (it : UploadItem), l[i]? = some it →
      (shouldProcess it = false → (convertAllGo conv q l n).items[i]? = some it) ∧
      (shouldProcess it = true →
        (∀ b, conv it.file q = Except.ok b →
          ∃ u, (convertAllGo conv q l n).items[i]? = some
            { it with
              status := UploadStatus.done, outputBlob := some b, outputUrl := some u,
              outputName := some (outputNameOf it.file.name), sizeAfter := some b.size }) ∧
        (∀ e, conv it.file q = Except.error e →
          (convertAllGo conv q l n).items[i]? = some
            { it with
              status := UploadStatus.error, errorMessage := some (msgOfThrown e) })) := by
  intro l
  induction l with
  | nil => intro n i it h; simp at h
  | cons hd rest ih =>
    intro n i it h
    cases i with
    | zero =>
      have hhd : hd = it := by simpa using h
      subst hhd
      constructor
      · intro hp
        simp [convertAllGo, hp]
      · intro hp
        constructor
        · intro b hb
          exact ⟨n, by simp [convertAllGo, hp, hb]⟩
        · intro e he
          simp [convertAllGo, hp, he]
    | succ j =>
      have h' : rest[j]? = some it := by simpa using h
      by_cases hp : shouldProcess hd = true
      · rcases hconv : conv hd.file q with e | b
        · have := ih n j it h'
          constructor
          · intro hq
            simpa [convertAllGo, hp, hconv] using this.1 hq
          · intro hq
            refine ⟨fun b hb => ?_, fun e2 he2 => ?_⟩
            · obtain ⟨u, hu⟩ := (this.2 hq).1 b hb
              exact ⟨u, by simpa [convertAllGo, hp, hconv] using hu⟩
            · simpa [convertAllGo, hp, hconv] using (this.2 hq).2 e2 he2
        · have := ih (n + 1) j it h'
          constructor
          · intro hq
            simpa [convertAllGo, hp, hconv] using this.1 hq
          · intro hq
            refine ⟨fun b2 hb2 => ?_, fun e2 he2 => ?_⟩
            · obtain ⟨u, hu⟩ := (this.2 hq).1 b2 hb2
              exact ⟨u, by simpa [convertAllGo, hp, hconv] using hu⟩
            · simpa [convertAllGo, hp, hconv] using (this.2 hq).2 e2 he2
      · have := ih n j it h'
        constructor
        · intro hq
          simpa [convertAllGo, hp] using this.1 hq
        · intro hq
          refine ⟨fun b2 hb2 => ?_, fun e2 he2 => ?_⟩
          · obtain ⟨u, hu⟩ := (this.2 hq).1 b2 hb2
            exact ⟨u, by simpa [convertAllGo, hp] using hu⟩
          · simpa [convertAllGo, hp] using (this.2 hq).2 e2 he2

/-- C1: `convertAll` preserves the list's length; every item whose status is
`queued` or `error` is marked `converting`, the service is invoked (in list
order, as witnessed by the trace), and the item is set to `done` with output
blob, fresh URL, name and size populated on success, or to `error` with the
failure message stored on failure; items already `converting` or `done` are
left untouched. -/
theorem convertAll_spec (conv : ConvOracle) (st : QueueState) (i : Nat)
    (it : UploadItem) (h : st.items[i]? = some it) :
    ((convertAll conv st).1.items.length = st.items.length) ∧
    ((it.status = UploadStatus.converting ∨ it.status = UploadStatus.done) →
      (convertAll conv st).1.items[i]? = some it) ∧
    ((it.status = UploadStatus.queued ∨ it.status = UploadStatus.error) →
      (∀ b, conv it.file st.quality = Except.ok b →
        ∃ u, (convertAll conv st).1.items[i]? = some
          { it with
            status := UploadStatus.done, outputBlob := some b, outputUrl := some u,
            outputName := some (outputNameOf it.file.name), sizeAfter := some b.size }) ∧
      (∀ e, conv it.file st.quality = Except.error e →
        (convertAll conv st).1.items[i]? = some
          { it with
            status := UploadStatus.error, errorMessage := some (msgOfThrown e) })) ∧
    ((convertAll conv st).2 = st.items.flatMap (fun j =>
      if shouldProcess j then
        [ConvEvent.markedConverting j.id, ConvEvent.convInvoked j.file]
      else [])) := by
  have hget := convertAllGo_get conv st.quality st.items st.nextUrl i it h
  refine ⟨convertAllGo_length conv st.quality st.items st.nextUrl, ?_, ?_,
    convertAllGo_trace conv st.quality st.items st.nextUrl⟩
  · intro hs
    exact hget.1 ((shouldProcess_eq_false_iff it).mpr hs)
  · intro hs
    exact hget.2 ((shouldProcess_iff it).mpr hs)

theorem convertAll_spec_witness :
    stateW.items[1]? = some itemQueuedW ∧
    (convertAll convOk stateW).1.items.length = stateW.items.length :=
  ⟨by decide, (convertAll_spec convOk stateW 1 itemQueuedW (by decide)).1⟩

theorem convertAllGo_statuses (conv : ConvOracle) (q : ℚ) :
    ∀ (l : List UploadItem) (n : Nat), (∀ it ∈ l, it.status ≠ UploadStatus.converting) →
      ∀ it ∈ (convertAllGo conv q l n).items,
        it.status = UploadStatus.done ∨ it.status = UploadStatus.error := by
  intro l
  induction l with
  | nil => intro n hpre it hmem; simp [convertAllGo] at hmem
  | cons hd rest ih =>
    intro n hpre it hmem
    have hpre' : ∀ j ∈ rest, j.status ≠ UploadStatus.converting :=
      fun j hj => hpre j (List.mem_cons_of_mem hd hj)
    by_cases hp : shouldProcess hd = true
    · rcases hconv : conv hd.file q with e | b
      · simp only [convertAllGo, hp, if_true, hconv] at hmem
        rcases List.mem_cons.mp hmem with heq | hmem'
        · right; rw [heq]
        · exact ih n hpre' it hmem'
      · simp only [convertAllGo, hp, if_true, hconv] at hmem
        rcases List.mem_cons.mp hmem with heq | hmem'
        · left; rw [heq]
        · exact ih (n + 1) hpre' it hmem'
    · simp only [convertAllGo, hp, if_false, Bool.false_eq_true] at hmem
      rcases List.mem_cons.mp hmem with heq | hmem'
      · rcases (shouldProcess_eq_false_iff hd).mp (by simpa using hp) with hc | hc
        · exact absurd hc (hpre hd (List.mem_cons_self hd rest))
        · left; rw [heq]; exact hc
      · exact ih n hpre' it hmem'

/-- C10: after `convertAll` runs to completion from a quiescent state (no
item still `converting`, i.e. no interleaved batch in flight), every item is
either `done` or `error`; none is left `queued` or `converting`. -/
theorem convertAll_terminal_statuses (conv : ConvOracle) (st : QueueState)
    (h : ∀ it ∈ st.items, it.status ≠ UploadStatus.converting) :
    ∀ it ∈ (convertAll conv st).1.items,
      it.status = UploadStatus.done ∨ it.status = UploadStatus.error :=
  convertAllGo_statuses conv st.quality st.items st.nextUrl h

theorem convertAll_terminal_statuses_witness :
    (∀ it ∈ stateW.items, it.status ≠ UploadStatus.converting) ∧
    (∀ it ∈ (convertAll convOk stateW).1.items,
      it.status = UploadStatus.done ∨ it.status = UploadStatus.error) :=
  ⟨by decide, convertAll_terminal_statuses convOk stateW (by decide)⟩

theorem acceptedType_iff (f : MFile) :
    acceptedType f = true ↔ (f.type = "image/jpeg" ∨ f.type = "image/png") := by
  simp [acceptedType]

theorem handleFilesGo_length : ∀ (fs : List MFile) (nid nurl : Nat),
    (handleFilesGo fs nid nurl).newItems.length = fs.length := by
  intro fs
  induction fs with
  | nil => intro nid nurl; rfl
  | cons g gs ih =>
    intro nid nurl
    by_cases hacc : acceptedType g = true
    · simp [handleFilesGo, hacc, ih]
    · simp [handleFilesGo, hacc, ih]

theorem handleFilesGo_get : ∀ (fs : List MFile) (nid nurl i : Nat) (f : MFile),
    fs[i]? = some f →
    (acceptedType f = false →
      ∃ nid2, (handleFilesGo fs nid nurl).newItems[i]? = some
        { id := nid2, file := f, status := UploadStatus.error,
          errorMessage := some unsupportedTypeMsg, outputUrl := none, outputBlob := none,
          outputName := none, sizeBefore := f.size, sizeAfter := none,
          thumbnailUrl := none }) ∧
    (acceptedType f = true →
      ∃ nid2 u, (handleFilesGo fs nid nurl).newItems[i]? = some
        { id := nid2, file := f, status := UploadStatus.queued, errorMessage := none,
          outputUrl := none, outputBlob := none, outputName := none,
          sizeBefore := f.size, sizeAfter := none, thumbnailUrl := some u }) := by
  intro fs
  induction fs with
  | nil => intro nid nurl i f h; simp at h
  | cons g gs ih =>
    intro nid nurl i f h
    cases i with
    | zero =>
      have hg : g = f := by simpa using h
      subst hg
      by_cases hacc : acceptedType g = true
      · refine ⟨fun hfalse => absurd hacc (by simp [hfalse]), fun _ => ?_⟩
        exact ⟨nid, nurl, by simp [handleFilesGo, hacc]⟩
      · refine ⟨fun _ => ⟨nid, by simp [handleFilesGo, hacc]⟩, fun htrue => absurd htrue hacc⟩
    | succ j =>
      have h' : gs[j]? = some f := by simpa using h
      by_cases hacc : acceptedType g = true
      · have := ih (nid + 1) (nurl + 1) j f h'
        refine ⟨fun hfalse => ?_, fun htrue => ?_⟩
        · obtain ⟨nid2, hn⟩ := this.1 hfalse
          exact ⟨nid2, by simpa [handleFilesGo, hacc] using hn⟩
        · obtain ⟨nid2, u, hn⟩ := this.2 htrue
          exact ⟨nid2, u, by simpa [handleFilesGo, hacc] using hn⟩
      · have := ih (nid + 1) nurl j f h'
        refine ⟨fun hfalse => ?_, fun htrue => ?_⟩
        · obtain ⟨nid2, hn⟩ := this.1 hfalse
          exact ⟨nid2, by simpa [handleFilesGo, hacc] using hn⟩
        · obtain ⟨nid2, u, hn⟩ := this.2 htrue
          exact ⟨nid2, u, by simpa [handleFilesGo, hacc] using hn⟩

/-- C2 (amended): `handleFiles` classifies each incoming file by declared
media type; a file whose type is not `image/jpeg` or `image/png` becomes an
`error` item with the message "Unsupported file type. Please upload JPEG or
PNG." and no thumbnail, an accepted file becomes a `queued` item with an
eagerly created thumbnail URL — and `handleFiles` itself invokes no
conversion (an error item can still be retried by a later `convertAll`). -/
theorem handleFiles_spec (files : List MFile) (st : QueueState) (i : Nat) (f : MFile)
    (h : files[i]? = some f) :
    ((handleFiles files st).items.length = st.items.length + files.length) ∧
    ((step (Op.files files) st).2 = []) ∧
    (¬ (f.type = "image/jpeg" ∨ f.type = "image/png") →
      ∃ nid, (handleFiles files st).items[st.items.length + i]? = some
        { id := nid, file := f, status := UploadStatus.error,
          errorMessage := some unsupportedTypeMsg, outputUrl := none, outputBlob := none,
          outputName := none, sizeBefore := f.size, sizeAfter := none,
          thumbnailUrl := none }) ∧
    ((f.type = "image/jpeg" ∨ f.type = "image/png") →
      ∃ nid u, (handleFiles files st).items[st.items.length + i]? = some
        { id := nid, file := f, status := UploadStatus.queued, errorMessage := none,
          outputUrl := none, outputBlob := none, outputName := none,
          sizeBefore := f.size, sizeAfter := none, thumbnailUrl := some u }) := by
  have hitems : (handleFiles files st).items =
      st.items ++ (handleFilesGo files st.nextId st.nextUrl).newItems := rfl
  have hget := handleFilesGo_get files st.nextId st.nextUrl i f h
  have hidx : ∀ x, (handleFilesGo files st.nextId st.nextUrl).newItems[i]? = some x →
      (handleFiles files st).items[st.items.length + i]? = some x := by
    intro x hx
    rw [hitems, List.getElem?_append_right (by omega)]
    simpa using hx
  refine ⟨?_, rfl, ?_, ?_⟩
  · rw [hitems]
    simp [handleFilesGo_length]
  · intro hrej
    have hacc : acceptedType f = false := by
      cases hh : acceptedType f
      · rfl
      · exact absurd ((acceptedType_iff f).mp hh) hrej
    obtain ⟨nid, hn⟩ := hget.1 hacc
    exact ⟨nid, hidx _ hn⟩
  · intro hok
    obtain ⟨nid, u, hn⟩ := hget.2 ((acceptedType_iff f).mpr hok)
    exact ⟨nid, u, hidx _ hn⟩

theorem handleFiles_spec_witness :
    [fileG][0]? = some fileG ∧
    (handleFiles [fileG] initState).items.length = initState.items.length + 1 :=
  ⟨rfl, (handleFiles_spec [fileG] initState 0 fileG rfl).1⟩

theorem doneWithBlob_iff (it : UploadItem) :
    doneWithBlob it = true ↔
      (it.status = UploadStatus.done ∧ it.outputBlob.isSome = true) := by
  simp [doneWithBlob]

theorem zipEntriesGo_map_fst : ∀ (l : List UploadItem),
    (zipEntriesGo l).map Prod.fst = (l.filter doneWithBlob).map zipName := by
  intro l
  induction l with
  | nil => rfl
  | cons hd rest ih =>
    by_cases hs : hd.status = UploadStatus.done
    · rcases hb : hd.outputBlob with _ | b
      · simp [zipEntriesGo, doneWithBlob, hs, hb, ih]
      · simp [zipEntriesGo, doneWithBlob, zipName, hs, hb, ih]
    · simp [zipEntriesGo, doneWithBlob, hs, ih]

theorem zipEntriesGo_length : ∀ (l : List UploadItem),
    (zipEntriesGo l).length = (l.filter doneWithBlob).length := by
  intro l
  have h := congrArg List.length (zipEntriesGo_map_fst l)
  simpa using h

theorem zipEntriesGo_eq_nil_iff : ∀ (l : List UploadItem),
    zipEntriesGo l = [] ↔ ∀ it ∈ l, doneWithBlob it = false := by
  intro l
  induction l with
  | nil => simp [zipEntriesGo]
  | cons hd rest ih =>
    by_cases hs : hd.status = UploadStatus.done
    · rcases hb : hd.outputBlob with _ | b
      · simp [zipEntriesGo, doneWithBlob, hs, hb, ih]
      · simp [zipEntriesGo, doneWithBlob, hs, hb]
    · simp [zipEntriesGo, doneWithBlob, hs, ih]

/-- C7: `downloadAllZip` generates no archive and triggers no download (the
state is unchanged: no transient URL, no scheduled revocation) exactly when
no item is `done` with an output blob; otherwise the archive holds exactly
one entry per such item, in order, named by that item's computed output
name. -/
theorem downloadAllZip_spec (st : QueueState) :
    ((downloadAllZip st).2 = none ↔
      ∀ it ∈ st.items, ¬ (it.status = UploadStatus.done ∧ it.outputBlob.isSome = true)) ∧
    ((downloadAllZip st).2 = none → (downloadAllZip st).1 = st) ∧
    (∀ l, (downloadAllZip st).2 = some l →
      l.map Prod.fst = (st.items.filter doneWithBlob).map zipName ∧
      l.length = (st.items.filter doneWithBlob).length) := by
  by_cases he : (zipEntriesGo st.items).isEmpty = true
  · have hnil : zipEntriesGo st.items = [] := by simpa using he
    have hres : downloadAllZip st = (st, none) := by
      simp [downloadAllZip, he]
    refine ⟨?_, ?_, ?_⟩
    · rw [hres]
      simp only [true_iff]
      intro it hmem hcontra
      have := (zipEntriesGo_eq_nil_iff st.items).mp hnil it hmem
      rw [(by simp : (doneWithBlob it = false) = ¬ (doneWithBlob it = true))] at this
      exact this ((doneWithBlob_iff it).mpr hcontra)
    · intro _
      rw [hres]
    · intro l hl
      rw [hres] at hl
      simp at hl
  · have hres : (downloadAllZip st).2 = some (zipEntriesGo st.items) := by
      simp [downloadAllZip, he]
    refine ⟨?_, ?_, ?_⟩
    · rw [hres]
      simp only [reduceCtorEq, false_iff]
      intro hall
      have : zipEntriesGo st.items = [] := by
        rw [zipEntriesGo_eq_nil_iff]
        intro it hmem
        cases hh : doneWithBlob it
        · rfl
        · exact absurd ((doneWithBlob_iff it).mp hh) (hall it hmem)
      rw [this] at he
      simp at he
    · intro hnone
      rw [hres] at hnone
      simp at hnone
    · intro l hl
      rw [hres] at hl
      have : l = zipEntriesGo st.items := by injection hl with h2; exact h2.symm
      rw [this]
      exact ⟨zipEntriesGo_map_fst st.items, zipEntriesGo_length st.items⟩

theorem downloadAllZip_spec_witness :
    (downloadAllZip stateW).2 = some [("a.webp", { size := 3 })] ∧
    ([(("a.webp" : String), ({ size := 3 } : Blob))].map Prod.fst =
      (stateW.items.filter doneWithBlob).map zipName) :=
  ⟨by decide, ((downloadAllZip_spec stateW).2.2 [("a.webp", { size := 3 })] (by decide)).1⟩

theorem findIdx?_found {α : Type _} (p : α → Bool) :
    ∀ (l : List α) (i j : Nat), List.findIdx? p l i = some j →
      i ≤ j ∧ ∃ x, l[j - i]? = some x ∧ p x = true := by
  intro l
  induction l with
  | nil => intro i j h; simp [List.findIdx?] at h
  | cons a as ih =>
    intro i j h
    rw [List.findIdx?_cons] at h
    by_cases hp : p a = true
    · rw [if_pos hp] at h
      have hij : i = j := by injection h
      subst hij
      exact ⟨le_refl i, a, by simp, hp⟩
    · rw [if_neg hp] at h
      obtain ⟨hle, x, hx, hpx⟩ := ih (i + 1) j h
      refine ⟨by omega, x, ?_, hpx⟩
      rw [show j - i = (j - (i + 1)) + 1 from by omega, List.getElem?_cons_succ]
      exact hx

theorem nodup_not_mem_eraseIdx {α : Type _} :
    ∀ (l : List α) (i : Nat) (x : α), l.Nodup → l[i]? = some x → x ∉ l.eraseIdx i := by
  intro l
  induction l with
  | nil => intro i x _ h; simp at h
  | cons a as ih =>
    intro i x hnd h
    obtain ⟨hna, hnd'⟩ := List.nodup_cons.mp hnd
    cases i with
    | zero =>
      have hax : a = x := by simpa using h
      subst hax
      rw [List.eraseIdx_cons_zero]
      exact hna
    | succ j =>
      have h' : as[j]? = some x := by simpa using h
      rw [List.eraseIdx_cons_succ]
      intro hmem
      rcases List.mem_cons.mp hmem with heq | hmem'
      · exact hna (by rw [← heq]; exact List.getElem?_mem h')
      · exact ih j x hnd' h' hmem'

theorem mem_of_mem_eraseIdx {α : Type _} :
    ∀ (l : List α) (i : Nat) (x : α), x ∈ l.eraseIdx i → x ∈ l := by
  intro l
  induction l with
  | nil => intro i x h; simp [List.eraseIdx] at h
  | cons a as ih =>
    intro i x h
    cases i with
    | zero =>
      rw [List.eraseIdx_cons_zero] at h
      exact List.mem_cons_of_mem a h
    | succ j =>
      rw [List.eraseIdx_cons_succ] at h
      rcases List.mem_cons.mp h with heq | hmem'
      · rw [heq]; exact List.mem_cons_self a as
      · exact List.mem_cons_of_mem a (ih j x hmem')

/-- C6: deleting the item currently selected for preview revokes that item's
output and thumbnail URLs, and leaves the preview selection pointing either
at a remaining item whose status is not `error` or at no item at all — never
at the deleted item. -/
theorem deleteItem_spec (st : QueueState) (sid idx : Nat) (it : UploadItem)
    (hnd : (st.items.map UploadItem.id).Nodup)
    (hsel : st.selectedPreview = some sid)
    (hfind : st.items.findIdx? (fun j => j.id == sid) = some idx)
    (hget : st.items[idx]? = some it) :
    ((deleteItem sid st).items = st.items.eraseIdx idx) ∧
    (∀ u, it.outputUrl = some u → u ∈ (deleteItem sid st).revokedUrls) ∧
    (∀ u, it.thumbnailUrl = some u → u ∈ (deleteItem sid st).revokedUrls) ∧
    ((deleteItem sid st).selectedPreview = none ∨
      ∃ j, j ∈ (deleteItem sid st).items ∧
        (deleteItem sid st).selectedPreview = some j.id ∧
        j.status ≠ UploadStatus.error) ∧
    ((deleteItem sid st).selectedPreview ≠ some sid) := by
  have hit_id : it.id = sid := by
    obtain ⟨-, x, hx, hpx⟩ := findIdx?_found (fun j => j.id == sid) st.items 0 idx hfind
    rw [Nat.sub_zero] at hx
    rw [hget] at hx
    have hxit : x = it := by
      injection hx with h2
      exact h2.symm
    subst hxit
    simpa using hpx
  have hst : deleteItem sid st =
      { st with
        items := st.items.eraseIdx idx
        selectedPreview :=
          ((st.items.eraseIdx idx).find?
            (fun j => decide (j.status ≠ UploadStatus.error))).map UploadItem.id
        revokedUrls := st.revokedUrls ++ itemUrls it } := by
    rw [deleteItem, hfind]
    simp [hget, hsel]
  have hitems2 : (deleteItem sid st).items = st.items.eraseIdx idx := by rw [hst]
  have hsel2 : (deleteItem sid st).selectedPreview =
      ((st.items.eraseIdx idx).find?
        (fun j => decide (j.status ≠ UploadStatus.error))).map UploadItem.id := by rw [hst]
  have hrev2 : (deleteItem sid st).revokedUrls = st.revokedUrls ++ itemUrls it := by
    rw [hst]
  refine ⟨hitems2, ?_, ?_, ?_, ?_⟩
  · intro u hu
    rw [hrev2]
    simp [itemUrls, hu]
  · intro u hu
    rw [hrev2]
    simp [itemUrls, hu]
  · cases hfind2 : (st.items.eraseIdx idx).find?
        (fun j => decide (j.status ≠ UploadStatus.error)) with
    | none =>
      left
      rw [hsel2, hfind2]
      rfl
    | some j =>
      right
      refine ⟨j, ?_, ?_, ?_⟩
      · rw [hitems2]
        exact List.mem_of_find?_eq_some hfind2
      · rw [hsel2, hfind2]
        rfl
      · have hp2 := List.find?_some hfind2
        simpa using hp2
  · rw [hsel2]
    cases hfind2 : (st.items.eraseIdx idx).find?
        (fun j => decide (j.status ≠ UploadStatus.error)) with
    | none => simp
    | some j =>
      intro hjid
      have hjid2 : j.id = sid := by simpa using hjid
      have hj_mem_erase : j ∈ st.items.eraseIdx idx := List.mem_of_find?_eq_some hfind2
      have hj_mem : j ∈ st.items := mem_of_mem_eraseIdx st.items idx j hj_mem_erase
      have hit_mem : it ∈ st.items := List.getElem?_mem hget
      have hji : j = it :=
        List.inj_on_of_nodup_map hnd hj_mem hit_mem (by rw [hjid2, hit_id])
      rw [hji] at hj_mem_erase
      exact nodup_not_mem_eraseIdx st.items idx it (List.Nodup.of_map UploadItem.id hnd)
        hget hj_mem_erase

theorem deleteItem_spec_witness :
    stateW.selectedPreview = some 0 ∧ stateW.items[0]? = some itemDoneW ∧
    ((deleteItem 0 stateW).selectedPreview ≠ some 0) :=
  ⟨rfl, rfl,
    (deleteItem_spec stateW 0 0 itemDoneW (by decide) rfl (by decide) rfl).2.2.2.2⟩

theorem outputNameOf_ne_empty (name : String) : outputNameOf name ≠ "" := by
  intro h
  have h2 := congrArg String.length h
  rw [outputNameOf, String.length_append] at h2
  have h5 : (".webp" : String).length = 5 := rfl
  have h0 : ("" : String).length = 0 := rfl
  omega

theorem handleFilesGo_itemProp : ∀ (fs : List MFile) (nid nurl : Nat),
    ∀ it ∈ (handleFilesGo fs nid nurl).newItems, ItemProp it := by
  intro fs
  induction fs with
  | nil => intro nid nurl it h; simp [handleFilesGo] at h
  | cons g gs ih =>
    intro nid nurl it h
    by_cases hacc : acceptedType g = true
    · simp only [handleFilesGo, hacc, if_true] at h
      rcases List.mem_cons.mp h with heq | hmem
      · rw [heq]
        exact ⟨fun hs => by simp at hs, fun hs => by simp at hs⟩
      · exact ih (nid + 1) (nurl + 1) it hmem
    · simp only [handleFilesGo, hacc, Bool.false_eq_true, if_false] at h
      rcases List.mem_cons.mp h with heq | hmem
      · rw [heq]
        exact ⟨fun hs => by simp at hs, fun _ => ⟨unsupportedTypeMsg, rfl, by decide⟩⟩
      · exact ih (nid + 1) nurl it hmem

theorem convertAllGo_itemProp (conv : ConvOracle) (q : ℚ) (hgood : GoodOracle conv) :
    ∀ (l : List UploadItem) (n : Nat), (∀ it ∈ l, ItemProp it) →
      ∀ it ∈ (convertAllGo conv q l n).items, ItemProp it := by
  intro l
  induction l with
  | nil => intro n hpre it h; simp [convertAllGo] at h
  | cons hd rest ih =>
    intro n hpre it h
    have hpre' : ∀ j ∈ rest, ItemProp j := fun j hj => hpre j (List.mem_cons_of_mem hd hj)
    by_cases hp : shouldProcess hd = true
    · rcases hcv : conv hd.file q with e | b
      · simp only [convertAllGo, hp, if_true, hcv] at h
        rcases List.mem_cons.mp h with heq | hmem
        · rw [heq]
          refine ⟨fun hs => by simp at hs, fun _ => ?_⟩
          cases e with
          | none => exact ⟨msgOfThrown none, rfl, by decide⟩
          | some m => exact ⟨m, rfl, hgood hd.file q m hcv⟩
        · exact ih n hpre' it hmem
      · simp only [convertAllGo, hp, if_true, hcv] at h
        rcases List.mem_cons.mp h with heq | hmem
        · rw [heq]
          exact ⟨fun _ => ⟨rfl, rfl, outputNameOf hd.file.name, rfl,
            outputNameOf_ne_empty hd.file.name⟩, fun hs => by simp at hs⟩
        · exact ih (n + 1) hpre' it hmem
    · simp only [convertAllGo, hp, Bool.false_eq_true, if_false] at h
      rcases List.mem_cons.mp h with heq | hmem
      · rw [heq]
        exact hpre hd (List.mem_cons_self hd rest)
      · exact ih n hpre' it hmem

theorem selectPreviewItem_items (id : Nat) (st : QueueState) :
    (selectPreviewItem id st).items = st.items := by
  cases h : st.items.find? (fun it => it.id == id) with
  | none => simp [selectPreviewItem, h]
  | some x => simp [selectPreviewItem, h]

theorem downloadAllZip_items (st : QueueState) :
    (downloadAllZip st).1.items = st.items := by
  by_cases he : (zipEntriesGo st.items).isEmpty = true
  · simp [downloadAllZip, he]
  · simp [downloadAllZip, he]

theorem deleteItem_items_cases (id : Nat) (st : QueueState) :
    (deleteItem id st).items = st.items ∨
    ∃ idx, (deleteItem id st).items = st.items.eraseIdx idx := by
  cases hf : st.items.findIdx? (fun j => j.id == id) with
  | none => left; simp [deleteItem, hf]
  | some idx =>
    cases hg : st.items[idx]? with
    | none => left; simp [deleteItem, hf, hg]
    | some x => right; exact ⟨idx, by simp [deleteItem, hf, hg]⟩

theorem previewRun_items (res : Option Blob) (st : QueueState) :
    (previewRun res st).1.items = st.items ∨
    ∃ sid b, res = some b ∧ (previewRun res st).1.items = st.items.map (fun j =>
      if j.id = sid then
        { j with
          sizeAfter := some b.size, outputBlob := some b,
          outputUrl := some (st.nextUrl + 2), outputName := some (outputNameOf j.file.name) }
      else j) := by
  cases hs : st.selectedPreview with
  | none => left; simp [previewRun, hs]
  | some sid =>
    cases hf : st.items.find? (fun it => it.id == sid) with
    | none => left; simp [previewRun, hs, hf]
    | some x =>
      cases res with
      | none => left; simp [previewRun, hs, hf]
      | some b => right; exact ⟨sid, b, rfl, by simp [previewRun, hs, hf]⟩

theorem step_itemProp (op : Op) (st : QueueState) (hpre : ItemsInvariant st)
    (hop : ∀ conv, op = Op.convert conv → GoodOracle conv) :
    ItemsInvariant (step op st).1 := by
  cases op with
  | files fs =>
    intro it hmem
    have hshape : (step (Op.files fs) st).1.items =
        st.items ++ (handleFilesGo fs st.nextId st.nextUrl).newItems := rfl
    rw [hshape] at hmem
    rcases List.mem_append.mp hmem with h1 | h2
    · exact hpre it h1
    · exact handleFilesGo_itemProp fs st.nextId st.nextUrl it h2
  | convert conv =>
    intro it hmem
    have hg : GoodOracle conv := hop conv rfl
    have hshape : (step (Op.convert conv) st).1.items =
        (convertAllGo conv st.quality st.items st.nextUrl).items := rfl
    rw [hshape] at hmem
    exact convertAllGo_itemProp conv st.quality hg st.items st.nextUrl hpre it hmem
  | delete id =>
    intro it hmem
    have hshape : (step (Op.delete id) st).1.items = (deleteItem id st).items := rfl
    rw [hshape] at hmem
    rcases deleteItem_items_cases id st with hsame | ⟨idx, herase⟩
    · rw [hsame] at hmem
      exact hpre it hmem
    · rw [herase] at hmem
      exact hpre it (mem_of_mem_eraseIdx st.items idx it hmem)
  | clear =>
    intro it hmem
    simp [step, clearAll] at hmem
  | zipAll =>
    intro it hmem
    have hshape : (step Op.zipAll st).1.items = (downloadAllZip st).1.items := rfl
    rw [hshape, downloadAllZip_items] at hmem
    exact hpre it hmem
  | select id =>
    intro it hmem
    have hshape : (step (Op.select id) st).1.items = (selectPreviewItem id st).items := rfl
    rw [hshape, selectPreviewItem_items] at hmem
    exact hpre it hmem
  | preview res =>
    intro it hmem
    have hshape : (step (Op.preview res) st).1.items = (previewRun res st).1.items := rfl
    rw [hshape] at hmem
    rcases previewRun_items res st with hsame | ⟨sid, b, -, hmap⟩
    · rw [hsame] at hmem
      exact hpre it hmem
    · rw [hmap] at hmem
      obtain ⟨j, hj_mem, hj_eq⟩ := List.mem_map.mp hmem
      have hj := hpre j hj_mem
      by_cases hid : j.id = sid
      · rw [if_pos hid] at hj_eq
        rw [← hj_eq]
        refine ⟨fun _ => ⟨rfl, rfl, outputNameOf j.file.name, rfl,
          outputNameOf_ne_empty j.file.name⟩, fun hs => ?_⟩
        have hs' : j.status = UploadStatus.error := hs
        obtain ⟨m, hm, hm'⟩ := hj.2 hs'
        exact ⟨m, hm, hm'⟩
      · rw [if_neg hid] at hj_eq
        rw [← hj_eq]
        exact hj

theorem run_itemsInvariant : ∀ (ops : List Op) (st : QueueState), GoodOps ops →
    ItemsInvariant st → ItemsInvariant (run ops st).1 := by
  intro ops
  induction ops with
  | nil => intro st _ hpre; exact hpre
  | cons op rest ih =>
    intro st hgood hpre
    have hgood' : GoodOps rest := fun conv hmem => hgood conv (List.mem_cons_of_mem op hmem)
    have hop : ∀ conv, op = Op.convert conv → GoodOracle conv := by
      intro conv heq
      exact hgood conv (by rw [← heq]; exact List.mem_cons_self op rest)
    exact ih (step op st).1 hgood' (step_itemProp op st hpre hop)

/-- C3: in every queue state reachable by any sequence of session operations
whose conversion failures carry non-empty messages (as the converter's own
errors do), every `done` item has an output blob, an output URL and a
non-empty output name, and every `error` item has a non-empty error
message. -/
theorem queue_items_invariant (ops : List Op) (hgood : GoodOps ops) :
    ItemsInvariant (run ops initState).1 :=
  run_itemsInvariant ops initState hgood (fun it hmem => by simp [initState] at hmem)

theorem queue_items_invariant_witness :
    GoodOps [Op.files [fileA, fileG], Op.convert convOk] ∧
    ItemsInvariant (run [Op.files [fileA, fileG], Op.convert convOk] initState).1 := by
  have hg : GoodOps [Op.files [fileA, fileG], Op.convert convOk] := by
    intro conv hmem
    rcases List.mem_cons.mp hmem with h1 | h2
    · exact absurd h1 (by simp)
    · rcases List.mem_cons.mp h2 with h3 | h4
      · have hc : conv = convOk := by injection h3
        subst hc
        intro f q m hbad
        simp [convOk] at hbad
      · simp at h4
  exact ⟨hg, queue_items_invariant [Op.files [fileA, fileG], Op.convert convOk] hg⟩

/-- C9 counterexample: zoom in, start a drag, reset via the keyboard, then
keep dragging — the scale is exactly 1 while the pan offset is (5, 0), and
the pan happened while the scale was not greater than 1. -/
theorem zoom_reset_during_drag_counterexample :
    (let s := zoomRun [ZoomEvent.keyPlus, ZoomEvent.imageMouseDown false 0 0,
        ZoomEvent.keyReset, ZoomEvent.imageMouseMove 5 0] initZoom
     s.scale = 1 ∧ s.panX = 5 ∧ s.panY = 0) := by
  show _ ∧ _ ∧ _
  norm_num [zoomRun, zoomStep, handleWheel, handleImageMouseDown,
    handleImageMouseMove, resetZoom, initZoom, min_def, max_def]

theorem scaleReach_one : ScaleReach 1 :=
  ⟨0, 0, Or.inl (by norm_num)⟩

theorem scaleReach_mul_up (q : ℚ) (h : ScaleReach q) : ScaleReach (q * (11/10)) := by
  obtain ⟨a, b, hc⟩ := h
  refine ⟨a + 1, b, ?_⟩
  rcases hc with hc | hc | hc
  · left; rw [hc]; ring
  · right; left; rw [hc]; ring
  · right; right; rw [hc]; ring

theorem scaleReach_mul_down (q : ℚ) (h : ScaleReach q) : ScaleReach (q * (9/10)) := by
  obtain ⟨a, b, hc⟩ := h
  refine ⟨a, b + 1, ?_⟩
  rcases hc with hc | hc | hc
  · left; rw [hc]; ring
  · right; left; rw [hc]; ring
  · right; right; rw [hc]; ring

theorem scaleReach_min3 (q : ℚ) (h : ScaleReach q) : ScaleReach (min 3 q) := by
  rcases le_total 3 q with hle | hle
  · rw [min_eq_left hle]
    exact ⟨0, 0, Or.inr (Or.inl (by norm_num))⟩
  · rwa [min_eq_right hle]

theorem scaleReach_max_half (q : ℚ) (h : ScaleReach q) : ScaleReach (max (1/2) q) := by
  rcases le_total q (1/2) with hle | hle
  · rw [max_eq_left hle]
    exact ⟨0, 0, Or.inr (Or.inr (by norm_num))⟩
  · rwa [max_eq_right hle]

/-- No reachable zoom value equals 10/11, so a `'+'` press never lands on
exactly 1: the zoom numerators stay odd while the denominators are powers of
ten. -/
theorem scaleReach_mul_up_ne_one (q : ℚ) (h : ScaleReach q) : q * (11/10) ≠ 1 := by
  obtain ⟨a, b, hc⟩ := h
  intro heq
  rcases hc with hc | hc | hc
  · rw [hc] at heq
    rw [div_pow, div_pow] at heq
    field_simp at heq
    have key2 : (11:ℕ)^a * 9^b * 11 = 10^a * 10^b * 10 := by exact_mod_cast heq
    have hodd : Odd ((11:ℕ)^a * 9^b * 11) :=
      Odd.mul (Odd.mul (Odd.pow ⟨5, by norm_num⟩) (Odd.pow ⟨4, by norm_num⟩)) ⟨5, by norm_num⟩
    have heven : Even ((10:ℕ)^a * 10^b * 10) := by
      refine Even.mul_left ?_ _
      decide
    rw [key2] at hodd
    exact (Nat.not_odd_iff_even.mpr heven) hodd
  · rw [hc] at heq
    rw [div_pow, div_pow] at heq
    field_simp at heq
    have key2 : (3:ℕ) * (11^a * 9^b) * 11 = 10^a * 10^b * 10 := by exact_mod_cast heq
    have hodd : Odd ((3:ℕ) * (11^a * 9^b) * 11) :=
      Odd.mul (Odd.mul ⟨1, by norm_num⟩
        (Odd.mul (Odd.pow ⟨5, by norm_num⟩) (Odd.pow ⟨4, by norm_num⟩))) ⟨5, by norm_num⟩
    have heven : Even ((10:ℕ)^a * 10^b * 10) := by
      refine Even.mul_left ?_ _
      decide
    rw [key2] at hodd
    exact (Nat.not_odd_iff_even.mpr heven) hodd
  · rw [hc] at heq
    rw [div_pow, div_pow] at heq
    field_simp at heq
    have key2 : (11:ℕ)^a * 9^b * 11 = 2 * (10^a * 10^b) * 10 := by exact_mod_cast heq
    have hodd : Odd ((11:ℕ)^a * 9^b * 11) :=
      Odd.mul (Odd.mul (Odd.pow ⟨5, by norm_num⟩) (Odd.pow ⟨4, by norm_num⟩)) ⟨5, by norm_num⟩
    have heven : Even ((2:ℕ) * (10^a * 10^b) * 10) := by
      refine Even.mul_left ?_ _
      decide
    rw [key2] at hodd
    exact (Nat.not_odd_iff_even.mpr heven) hodd

theorem min3_eq_one (x : ℚ) (h : min 3 x = 1) : x = 1 := by
  rcases le_total 3 x with hle | hle
  · rw [min_eq_left hle] at h
    norm_num at h
  · rwa [min_eq_right hle] at h

/-- C9 (amended): starting from any state whose zoom value is reachable
(an invariant preserved by every event), every zoom operation that CHANGES
the scale to exactly 1 also resets the pan offsets to (0, 0), and panning can
only be INITIATED while the scale is greater than 1 (a mouse-down with scale
at most 1 does not start panning, and arrow keys with scale at most 1 do not
pan).  However, a mouse drag that was already active keeps panning after a
mid-drag reset, so a state with scale exactly 1 and a nonzero pan offset is
reachable (see the counterexample). -/
theorem zoom_pan_spec (s : ZoomState) (e : ZoomEvent) (hreach : ScaleReach s.scale) :
    ScaleReach ((zoomStep e s).scale) ∧
    ((zoomStep e s).scale = 1 → s.scale ≠ 1 →
      (zoomStep e s).panX = 0 ∧ (zoomStep e s).panY = 0) ∧
    (∀ d x y, s.scale ≤ 1 →
      (zoomStep (ZoomEvent.imageMouseDown d x y) s).isPanning = s.isPanning ∧
      (zoomStep (ZoomEvent.imageMouseDown d x y) s).panX = s.panX ∧
      (zoomStep (ZoomEvent.imageMouseDown d x y) s).panY = s.panY) ∧
    (s.scale ≤ 1 →
      (zoomStep ZoomEvent.arrowLeft s).panX = s.panX ∧
      (zoomStep ZoomEvent.arrowRight s).panX = s.panX ∧
      (zoomStep ZoomEvent.arrowUp s).panY = s.panY ∧
      (zoomStep ZoomEvent.arrowDown s).panY = s.panY) := by
  have hmousedown : ∀ d x y, s.scale ≤ 1 →
      (zoomStep (ZoomEvent.imageMouseDown d x y) s).isPanning = s.isPanning ∧
      (zoomStep (ZoomEvent.imageMouseDown d x y) s).panX = s.panX ∧
      (zoomStep (ZoomEvent.imageMouseDown d x y) s).panY = s.panY := by
    intro d x y hle
    cases d with
    | true => exact ⟨rfl, rfl, rfl⟩
    | false =>
      show (handleImageMouseDown false x y s).isPanning = s.isPanning ∧
        (handleImageMouseDown false x y s).panX = s.panX ∧
        (handleImageMouseDown false x y s).panY = s.panY
      rw [handleImageMouseDown, if_neg (by simp), if_pos hle]
      exact ⟨rfl, rfl, rfl⟩
  have harrows : s.scale ≤ 1 →
      (zoomStep ZoomEvent.arrowLeft s).panX = s.panX ∧
      (zoomStep ZoomEvent.arrowRight s).panX = s.panX ∧
      (zoomStep ZoomEvent.arrowUp s).panY = s.panY ∧
      (zoomStep ZoomEvent.arrowDown s).panY = s.panY := by
    intro hle
    have h1 : ¬ (s.scale > 1) := not_lt.mpr hle
    refine ⟨?_, ?_, ?_, ?_⟩
    · show (if s.scale > 1 then _ else _ : ZoomState).panX = s.panX
      rw [if_neg h1]
    · show (if s.scale > 1 then _ else _ : ZoomState).panX = s.panX
      rw [if_neg h1]
    · show (if s.scale > 1 then _ else _ : ZoomState).panY = s.panY
      rw [if_neg h1]
    · show (if s.scale > 1 then _ else _ : ZoomState).panY = s.panY
      rw [if_neg h1]
  refine ⟨?_, ?_, hmousedown, harrows⟩
  · cases e with
    | wheel intentional dY =>
      show ScaleReach ((handleWheel intentional dY s).scale)
      cases intentional with
      | false => exact hreach
      | true =>
        rw [handleWheel, if_pos rfl]
        split_ifs with h1 h2 h3
        all_goals first
          | exact hreach
          | exact scaleReach_max_half _ (scaleReach_min3 _ (scaleReach_mul_up s.scale hreach))
          | exact scaleReach_max_half _ (scaleReach_min3 _ (scaleReach_mul_down s.scale hreach))
    | keyPlus =>
      show ScaleReach (min 3 (s.scale * (11/10)))
      exact scaleReach_min3 _ (scaleReach_mul_up s.scale hreach)
    | keyMinus =>
      show ScaleReach ((zoomStep ZoomEvent.keyMinus s).scale)
      rw [zoomStep]
      split_ifs with h1
      · exact scaleReach_max_half _ (scaleReach_mul_down s.scale hreach)
      · exact scaleReach_max_half _ (scaleReach_mul_down s.scale hreach)
    | keyReset => exact scaleReach_one
    | arrowLeft =>
      show ScaleReach ((if s.scale > 1 then _ else _ : ZoomState).scale)
      split_ifs <;> exact hreach
    | arrowRight =>
      show ScaleReach ((if s.scale > 1 then _ else _ : ZoomState).scale)
      split_ifs <;> exact hreach
    | arrowUp =>
      show ScaleReach ((if s.scale > 1 then _ else _ : ZoomState).scale)
      split_ifs <;> exact hreach
    | arrowDown =>
      show ScaleReach ((if s.scale > 1 then _ else _ : ZoomState).scale)
      split_ifs <;> exact hreach
    | imageMouseDown d x y =>
      show ScaleReach ((handleImageMouseDown d x y s).scale)
      rw [handleImageMouseDown]
      split_ifs <;> exact hreach
    | imageMouseMove x y =>
      show ScaleReach ((handleImageMouseMove x y s).scale)
      rw [handleImageMouseMove]
      split_ifs <;> exact hreach
    | imageMouseUp => exact hreach
  · cases e with
    | wheel intentional dY =>
      intro h1 h2
      cases intentional with
      | false => exact absurd h1 h2
      | true =>
        have h1' : (handleWheel true dY s).scale = 1 := h1
        show (handleWheel true dY s).panX = 0 ∧ (handleWheel true dY s).panY = 0
        rw [handleWheel, if_pos rfl] at h1' ⊢
        by_cases hne : max (1/2)
            (min 3 (s.scale * (if -dY > 0 then (11/10 : ℚ) else 9/10))) ≠ s.scale
        · rw [if_pos hne] at h1' ⊢
          by_cases hone : max (1/2)
              (min 3 (s.scale * (if -dY > 0 then (11/10 : ℚ) else 9/10))) = 1
          · rw [if_pos hone]
            exact ⟨rfl, rfl⟩
          · rw [if_neg hone] at h1'
            exact absurd h1' hone
        · rw [if_neg hne] at h1'
          exact absurd h1' h2
    | keyPlus =>
      intro h1 h2
      have h1' : min 3 (s.scale * (11/10)) = 1 := h1
      exact absurd (min3_eq_one _ h1') (scaleReach_mul_up_ne_one s.scale hreach)
    | keyMinus =>
      intro h1 h2
      have h1' : (zoomStep ZoomEvent.keyMinus s).scale = 1 := h1
      show (zoomStep ZoomEvent.keyMinus s).panX = 0 ∧ (zoomStep ZoomEvent.keyMinus s).panY = 0
      rw [zoomStep] at h1' ⊢
      by_cases hone : max (1/2) (s.scale * (9/10)) = 1
      · rw [if_pos hone]
        exact ⟨rfl, rfl⟩
      · rw [if_neg hone] at h1'
        exact absurd h1' hone
    | keyReset => intro h1 h2; exact ⟨rfl, rfl⟩
    | arrowLeft =>
      intro h1 h2
      have hsc : (zoomStep ZoomEvent.arrowLeft s).scale = s.scale := by
        rw [zoomStep]
        split_ifs <;> rfl
      rw [hsc] at h1
      exact absurd h1 h2
    | arrowRight =>
      intro h1 h2
      have hsc : (zoomStep ZoomEvent.arrowRight s).scale = s.scale := by
        rw [zoomStep]
        split_ifs <;> rfl
      rw [hsc] at h1
      exact absurd h1 h2
    | arrowUp =>
      intro h1 h2
      have hsc : (zoomStep ZoomEvent.arrowUp s).scale = s.scale := by
        rw [zoomStep]
        split_ifs <;> rfl
      rw [hsc] at h1
      exact absurd h1 h2
    | arrowDown =>
      intro h1 h2
      have hsc : (zoomStep ZoomEvent.arrowDown s).scale = s.scale := by
        rw [zoomStep]
        split_ifs <;> rfl
      rw [hsc] at h1
      exact absurd h1 h2
    | imageMouseDown d x y =>
      intro h1 h2
      have hsc : (zoomStep (ZoomEvent.imageMouseDown d x y) s).scale = s.scale := by
        show (handleImageMouseDown d x y s).scale = s.scale
        rw [handleImageMouseDown]
        split_ifs <;> rfl
      rw [hsc] at h1
      exact absurd h1 h2
    | imageMouseMove x y =>
      intro h1 h2
      have hsc : (zoomStep (ZoomEvent.imageMouseMove x y) s).scale = s.scale := by
        show (handleImageMouseMove x y s).scale = s.scale
        rw [handleImageMouseMove]
        split_ifs <;> rfl
      rw [hsc] at h1
      exact absurd h1 h2
    | imageMouseUp =>
      intro h1 h2
      exact absurd h1 h2

theorem zoom_pan_spec_witness :
    ScaleReach initZoom.scale ∧ ScaleReach ((zoomStep ZoomEvent.keyReset initZoom).scale) :=
  ⟨scaleReach_one, (zoom_pan_spec initZoom ZoomEvent.keyReset scaleReach_one).1⟩

theorem count_flatMap_eraseIdx {α : Type _} (f : α → List Nat) :
    ∀ (l : List α) (i : Nat) (x : α), l[i]? = some x →
      ∀ u, (l.flatMap f).count u = ((l.eraseIdx i).flatMap f).count u + (f x).count u := by
  intro l
  induction l with
  | nil => intro i x h; simp at h
  | cons a as ih =>
    intro i x h u
    cases i with
    | zero =>
      have hax : a = x := by simpa using h
      subst hax
      rw [List.eraseIdx_cons_zero, List.flatMap_cons, List.count_append]
      omega
    | succ j =>
      have h' : as[j]? = some x := by simpa using h
      rw [List.eraseIdx_cons_succ, List.flatMap_cons, List.flatMap_cons,
        List.count_append, List.count_append, ih j x h' u]
      omega

theorem handleFilesGo_urls : ∀ (fs : List MFile) (nid nurl : Nat),
    (nurl ≤ (handleFilesGo fs nid nurl).nextUrl) ∧
    (∀ u ∈ (handleFilesGo fs nid nurl).newUrls,
      nurl ≤ u ∧ u < (handleFilesGo fs nid nurl).nextUrl) ∧
    ((handleFilesGo fs nid nurl).newUrls.Nodup) ∧
    ((handleFilesGo fs nid nurl).newItems.flatMap itemUrls =
      (handleFilesGo fs nid nurl).newUrls) ∧
    (∀ it ∈ (handleFilesGo fs nid nurl).newItems, it.outputUrl = none) := by
  intro fs
  induction fs with
  | nil =>
    intro nid nurl
    refine ⟨le_refl nurl, ?_, ?_, rfl, ?_⟩ <;> simp [handleFilesGo]
  | cons g gs ih =>
    intro nid nurl
    by_cases hacc : acceptedType g = true
    · obtain ⟨ih1, ih2, ih3, ih4, ih5⟩ := ih (nid + 1) (nurl + 1)
      have hshape : handleFilesGo (g :: gs) nid nurl =
          { newItems :=
              { id := nid, file := g, status := UploadStatus.queued, errorMessage := none,
                outputUrl := none, outputBlob := none, outputName := none,
                sizeBefore := g.size, sizeAfter := none,
                thumbnailUrl := some nurl } :: (handleFilesGo gs (nid + 1) (nurl + 1)).newItems
            nextId := (handleFilesGo gs (nid + 1) (nurl + 1)).nextId
            nextUrl := (handleFilesGo gs (nid + 1) (nurl + 1)).nextUrl
            newUrls := nurl :: (handleFilesGo gs (nid + 1) (nurl + 1)).newUrls } := by
        simp [handleFilesGo, hacc]
      rw [hshape]
      simp only []
      refine ⟨by omega, ?_, ?_, ?_, ?_⟩
      · intro u hu
        rcases List.mem_cons.mp hu with heq | hmem
        · subst heq
          exact ⟨le_refl u, by omega⟩
        · have := ih2 u hmem
          exact ⟨by omega, this.2⟩
      · rw [List.nodup_cons]
        refine ⟨fun hmem => ?_, ih3⟩
        have := ih2 nurl hmem
        omega
      · rw [List.flatMap_cons, ih4]
        rfl
      · intro it hmem
        rcases List.mem_cons.mp hmem with heq | hmem'
        · rw [heq]
        · exact ih5 it hmem'
    · obtain ⟨ih1, ih2, ih3, ih4, ih5⟩ := ih (nid + 1) nurl
      have hshape : handleFilesGo (g :: gs) nid nurl =
          { newItems :=
              { id := nid, file := g, status := UploadStatus.error,
                errorMessage := some unsupportedTypeMsg,
                outputUrl := none, outputBlob := none, outputName := none,
                sizeBefore := g.size, sizeAfter := none,
                thumbnailUrl := none } :: (handleFilesGo gs (nid + 1) nurl).newItems
            nextId := (handleFilesGo gs (nid + 1) nurl).nextId
            nextUrl := (handleFilesGo gs (nid + 1) nurl).nextUrl
            newUrls := (handleFilesGo gs (nid + 1) nurl).newUrls } := by
        simp [handleFilesGo, hacc]
      rw [hshape]
      simp only []
      refine ⟨ih1, ih2, ih3, ?_, ?_⟩
      · rw [List.flatMap_cons, ih4]
        rfl
      · intro it hmem
        rcases List.mem_cons.mp hmem with heq | hmem'
        · rw [heq]
        · exact ih5 it hmem'

theorem urlInv_files (fs : List MFile) (st : QueueState) (h : UrlInv st) :
    UrlInv (handleFiles fs st) := by
  obtain ⟨h1, h2, h3, h4, h5, h6, h7, h8, h9⟩ := h
  obtain ⟨g1, g2, g3, g4, g5⟩ := handleFilesGo_urls fs st.nextId st.nextUrl
  have hitems : (handleFiles fs st).items =
      st.items ++ (handleFilesGo fs st.nextId st.nextUrl).newItems := rfl
  have hheld : heldUrls (handleFiles fs st) =
      heldUrls st ++ (handleFilesGo fs st.nextId st.nextUrl).newUrls := by
    show (st.items ++ (handleFilesGo fs st.nextId st.nextUrl).newItems).flatMap itemUrls = _
    rw [List.flatMap_append, g4]
    rfl
  have hcreated : (handleFiles fs st).itemUrlsCreated =
      st.itemUrlsCreated ++ (handleFilesGo fs st.nextId st.nextUrl).newUrls := rfl
  have hnext : (handleFiles fs st).nextUrl =
      (handleFilesGo fs st.nextId st.nextUrl).nextUrl := rfl
  have hrev : (handleFiles fs st).revokedUrls = st.revokedUrls := rfl
  refine ⟨?_, ?_, ?_, ?_, ?_, ?_, h7, h8, ?_⟩
  · intro u hu
    rw [hcreated] at hu
    rw [hnext]
    rcases List.mem_append.mp hu with hm | hm
    · have := h1 u hm
      omega
    · exact (g2 u hm).2
  · intro u hu
    rw [hheld] at hu
    rw [hcreated]
    rcases List.mem_append.mp hu with hm | hm
    · exact List.mem_append.mpr (Or.inl (h2 u hm))
    · exact List.mem_append.mpr (Or.inr hm)
  · intro u
    rw [hheld, List.count_append]
    by_cases hm : u ∈ (handleFilesGo fs st.nextId st.nextUrl).newUrls
    · have hgeq : st.nextUrl ≤ u := (g2 u hm).1
      have hnotheld : u ∉ heldUrls st := by
        intro hc
        have := h1 u (h2 u hc)
        omega
      have hz : (heldUrls st).count u = 0 := List.count_eq_zero.mpr hnotheld
      have hle1 : (handleFilesGo fs st.nextId st.nextUrl).newUrls.count u ≤ 1 :=
        List.nodup_iff_count_le_one.mp g3 u
      omega
    · have hz : (handleFilesGo fs st.nextId st.nextUrl).newUrls.count u = 0 :=
        List.count_eq_zero.mpr hm
      have := h3 u
      omega
  · intro u hu
    rw [hrev]
    rw [hheld] at hu
    rcases List.mem_append.mp hu with hm | hm
    · exact h4 u hm
    · have hgeq : st.nextUrl ≤ u := (g2 u hm).1
      refine List.count_eq_zero.mpr (fun hc => ?_)
      have := h6 u hc
      omega
  · intro u hu hnot
    rw [hrev]
    rw [hcreated] at hu
    rw [hheld] at hnot
    rcases List.mem_append.mp hu with hm | hm
    · exact h5 u hm (fun hc => hnot (List.mem_append.mpr (Or.inl hc)))
    · exact absurd (List.mem_append.mpr (Or.inr hm)) hnot
  · intro u hu
    rw [hrev] at hu
    rw [hnext]
    have := h6 u hu
    omega
  · intro it hmem
    rw [hitems] at hmem
    rcases List.mem_append.mp hmem with hm | hm
    · exact h9 it hm
    · intro _
      exact g5 it hm

theorem convertAllGo_urls (conv : ConvOracle) (q : ℚ) :
    ∀ (l : List UploadItem) (n : Nat),
      (∀ it ∈ l, it.status ≠ UploadStatus.done → it.outputUrl = none) →
      (n ≤ (convertAllGo conv q l n).nextUrl) ∧
      (∀ u ∈ (convertAllGo conv q l n).newUrls,
        n ≤ u ∧ u < (convertAllGo conv q l n).nextUrl) ∧
      ((convertAllGo conv q l n).newUrls.Nodup) ∧
      (∀ u : Nat, ((convertAllGo conv q l n).items.flatMap itemUrls).count u =
        (l.flatMap itemUrls).count u + ((convertAllGo conv q l n).newUrls.count u)) ∧
      (∀ it ∈ (convertAllGo conv q l n).items,
        it.status ≠ UploadStatus.done → it.outputUrl = none) := by
  intro l
  induction l with
  | nil =>
    intro n hpre
    refine ⟨le_refl n, ?_, ?_, ?_, ?_⟩ <;> simp [convertAllGo]
  | cons hd rest ih =>
    intro n hpre
    have hpre' : ∀ it ∈ rest, it.status ≠ UploadStatus.done → it.outputUrl = none :=
      fun it hmem => hpre it (List.mem_cons_of_mem hd hmem)
    have hhd_out : hd.outputUrl = none ∨ hd.status = UploadStatus.done := by
      by_cases hs : hd.status = UploadStatus.done
      · right; exact hs
      · left; exact hpre hd (List.mem_cons_self hd rest) hs
    by_cases hp : shouldProcess hd = true
    · have hhd_none : hd.outputUrl = none := by
        rcases hhd_out with h | h
        · exact h
        · rcases (shouldProcess_iff hd).mp hp with hq | hq <;> rw [hq] at h <;> simp at h
      rcases hcv : conv hd.file q with e | b
      · obtain ⟨ih1, ih2, ih3, ih4, ih5⟩ := ih n hpre'
        have hshape : convertAllGo conv q (hd :: rest) n =
            { items :=
                { hd with
                  status := UploadStatus.error,
                  errorMessage := some (msgOfThrown e) } :: (convertAllGo conv q rest n).items
              nextUrl := (convertAllGo conv q rest n).nextUrl
              newUrls := (convertAllGo conv q rest n).newUrls
              trace := ConvEvent.markedConverting hd.id ::
                ConvEvent.convInvoked hd.file :: (convertAllGo conv q rest n).trace } := by
          simp [convertAllGo, hp, hcv]
        rw [hshape]
        simp only []
        refine ⟨ih1, ih2, ih3, ?_, ?_⟩
        · intro u
          rw [List.flatMap_cons, List.flatMap_cons, List.count_append, List.count_append, ih4 u]
          have : itemUrls { hd with
              status := UploadStatus.error,
              errorMessage := some (msgOfThrown e) } = itemUrls hd := rfl
          rw [this]
          omega
        · intro it hmem
          rcases List.mem_cons.mp hmem with heq | hmem'
          · rw [heq]
            intro _
            exact hhd_none
          · exact ih5 it hmem'
      · obtain ⟨ih1, ih2, ih3, ih4, ih5⟩ := ih (n + 1) hpre'
        have hshape : convertAllGo conv q (hd :: rest) n =
            { items :=
                { hd with
                  status := UploadStatus.done, outputBlob := some b, outputUrl := some n,
                  outputName := some (outputNameOf hd.file.name),
                  sizeAfter := some b.size } :: (convertAllGo conv q rest (n + 1)).items
              nextUrl := (convertAllGo conv q rest (n + 1)).nextUrl
              newUrls := n :: (convertAllGo conv q rest (n + 1)).newUrls
              trace := ConvEvent.markedConverting hd.id ::
                ConvEvent.convInvoked hd.file :: (convertAllGo conv q rest (n + 1)).trace } := by
          simp [convertAllGo, hp, hcv]
        rw [hshape]
        simp only []
        refine ⟨by omega, ?_, ?_, ?_, ?_⟩
        · intro u hu
          rcases List.mem_cons.mp hu with heq | hmem
          · subst heq
            exact ⟨le_refl u, by omega⟩
          · have := ih2 u hmem
            exact ⟨by omega, this.2⟩
        · rw [List.nodup_cons]
          refine ⟨fun hmem => ?_, ih3⟩
          have := ih2 n hmem
          omega
        · intro u
          rw [List.flatMap_cons, List.flatMap_cons, List.count_append, List.count_append, ih4 u]
          have h1 : itemUrls { hd with
              status := UploadStatus.done, outputBlob := some b, outputUrl := some n,
              outputName := some (outputNameOf hd.file.name),
              sizeAfter := some b.size } = n :: hd.thumbnailUrl.toList := rfl
          have h2 : itemUrls hd = hd.thumbnailUrl.toList := by
            rw [itemUrls, hhd_none]
            rfl
          rw [h1, h2, List.count_cons, List.count_cons]
          omega
        · intro it hmem
          rcases List.mem_cons.mp hmem with heq | hmem'
          · rw [heq]
            intro hcontra
            simp at hcontra
          · exact ih5 it hmem'
    · obtain ⟨ih1, ih2, ih3, ih4, ih5⟩ := ih n hpre'
      have hshape : convertAllGo conv q (hd :: rest) n =
          { items := hd :: (convertAllGo conv q rest n).items
            nextUrl := (convertAllGo conv q rest n).nextUrl
            newUrls := (convertAllGo conv q rest n).newUrls
            trace := (convertAllGo conv q rest n).trace } := by
        simp [convertAllGo, hp]
      rw [hshape]
      simp only []
      refine ⟨ih1, ih2, ih3, ?_, ?_⟩
      · intro u
        rw [List.flatMap_cons, List.flatMap_cons, List.count_append, List.count_append, ih4 u]
        omega
      · intro it hmem
        rcases List.mem_cons.mp hmem with heq | hmem'
        · rw [heq]
          exact hpre hd (List.mem_cons_self hd rest)
        · exact ih5 it hmem'

theorem urlInv_convert (conv : ConvOracle) (st : QueueState) (h : UrlInv st) :
    UrlInv (convertAll conv st).1 := by
  obtain ⟨h1, h2, h3, h4, h5, h6, h7, h8, h9⟩ := h
  obtain ⟨g1, g2, g3, g4, g5⟩ := convertAllGo_urls conv st.quality st.items st.nextUrl h9
  have hitems : (convertAll conv st).1.items =
      (convertAllGo conv st.quality st.items st.nextUrl).items := rfl
  have hcreated : (convertAll conv st).1.itemUrlsCreated =
      st.itemUrlsCreated ++ (convertAllGo conv st.quality st.items st.nextUrl).newUrls := rfl
  have hnext : (convertAll conv st).1.nextUrl =
      (convertAllGo conv st.quality st.items st.nextUrl).nextUrl := rfl
  have hrev : (convertAll conv st).1.revokedUrls = st.revokedUrls := rfl
  have hcount : ∀ u, (heldUrls (convertAll conv st).1).count u =
      (heldUrls st).count u +
        (convertAllGo conv st.quality st.items st.nextUrl).newUrls.count u := g4
  have hnew_big : ∀ u, u ∈ (convertAllGo conv st.quality st.items st.nextUrl).newUrls →
      st.nextUrl ≤ u := fun u hm => (g2 u hm).1
  have hheld_small : ∀ u, u ∈ heldUrls st → u < st.nextUrl := fun u hm => h1 u (h2 u hm)
  refine ⟨?_, ?_, ?_, ?_, ?_, ?_, h7, h8, ?_⟩
  · intro u hu
    rw [hcreated] at hu
    rw [hnext]
    rcases List.mem_append.mp hu with hm | hm
    · have := h1 u hm
      omega
    · exact (g2 u hm).2
  · intro u hu
    have hpos := List.one_le_count_iff.mpr hu
    rw [hcount u] at hpos
    rw [hcreated]
    by_cases hm : u ∈ (convertAllGo conv st.quality st.items st.nextUrl).newUrls
    · exact List.mem_append.mpr (Or.inr hm)
    · have hz : (convertAllGo conv st.quality st.items st.nextUrl).newUrls.count u = 0 :=
        List.count_eq_zero.mpr hm
      have : 1 ≤ (heldUrls st).count u := by omega
      exact List.mem_append.mpr (Or.inl (h2 u (List.one_le_count_iff.mp this)))
  · intro u
    rw [hcount u]
    by_cases hm : u ∈ (convertAllGo conv st.quality st.items st.nextUrl).newUrls
    · have hgeq := hnew_big u hm
      have hz : (heldUrls st).count u = 0 := by
        refine List.count_eq_zero.mpr (fun hc => ?_)
        have := hheld_small u hc
        omega
      have hle1 : (convertAllGo conv st.quality st.items st.nextUrl).newUrls.count u ≤ 1 :=
        List.nodup_iff_count_le_one.mp g3 u
      omega
    · have hz : (convertAllGo conv st.quality st.items st.nextUrl).newUrls.count u = 0 :=
        List.count_eq_zero.mpr hm
      have := h3 u
      omega
  · intro u hu
    rw [hrev]
    have hpos := List.one_le_count_iff.mpr hu
    rw [hcount u] at hpos
    by_cases hm : u ∈ (convertAllGo conv st.quality st.items st.nextUrl).newUrls
    · have hgeq := hnew_big u hm
      refine List.count_eq_zero.mpr (fun hc => ?_)
      have := h6 u hc
      omega
    · have hz : (convertAllGo conv st.quality st.items st.nextUrl).newUrls.count u = 0 :=
        List.count_eq_zero.mpr hm
      have : 1 ≤ (heldUrls st).count u := by omega
      exact h4 u (List.one_le_count_iff.mp this)
  · intro u hu hnot
    rw [hrev]
    rw [hcreated] at hu
    have hz : (heldUrls (convertAll conv st).1).count u = 0 :=
      List.count_eq_zero.mpr hnot
    rw [hcount u] at hz
    rcases List.mem_append.mp hu with hm | hm
    · refine h5 u hm (fun hc => ?_)
      have := List.one_le_count_iff.mpr hc
      omega
    · have := List.one_le_count_iff.mpr hm
      omega
  · intro u hu
    rw [hrev] at hu
    rw [hnext]
    have := h6 u hu
    omega
  · intro it hmem
    rw [hitems] at hmem
    exact g5 it hmem

theorem urlInv_delete (id : Nat) (st : QueueState) (h : UrlInv st) :
    UrlInv (deleteItem id st) := by
  obtain ⟨h1, h2, h3, h4, h5, h6, h7, h8, h9⟩ := h
  cases hf : st.items.findIdx? (fun j => j.id == id) with
  | none =>
    have hsame : deleteItem id st = st := by
      rw [deleteItem, hf]
    rw [hsame]
    exact ⟨h1, h2, h3, h4, h5, h6, h7, h8, h9⟩
  | some idx =>
    cases hg : st.items[idx]? with
    | none =>
      have hsame : deleteItem id st = st := by
        rw [deleteItem, hf]
        simp [hg]
      rw [hsame]
      exact ⟨h1, h2, h3, h4, h5, h6, h7, h8, h9⟩
    | some x =>
      have hitems : (deleteItem id st).items = st.items.eraseIdx idx := by
        rw [deleteItem, hf]
        simp [hg]
      have hrev : (deleteItem id st).revokedUrls = st.revokedUrls ++ itemUrls x := by
        rw [deleteItem, hf]
        simp [hg]
      have hcreated : (deleteItem id st).itemUrlsCreated = st.itemUrlsCreated := by
        rw [deleteItem, hf]
        simp [hg]
      have hnext : (deleteItem id st).nextUrl = st.nextUrl := by
        rw [deleteItem, hf]
        simp [hg]
      have hporig : (deleteItem id st).previewOrigUrl = st.previewOrigUrl := by
        rw [deleteItem, hf]
        simp [hg]
      have hpwebp : (deleteItem id st).previewWebpUrl = st.previewWebpUrl := by
        rw [deleteItem, hf]
        simp [hg]
      have hsplit : ∀ u, (heldUrls st).count u =
          (heldUrls (deleteItem id st)).count u + (itemUrls x).count u := by
        intro u
        have hcf := count_flatMap_eraseIdx itemUrls st.items idx x hg u
        rw [heldUrls, heldUrls, hitems]
        exact hcf
      refine ⟨?_, ?_, ?_, ?_, ?_, ?_, ?_, ?_, ?_⟩
      · intro u hu
        rw [hcreated] at hu
        rw [hnext]
        exact h1 u hu
      · intro u hu
        rw [hcreated]
        have hpos := List.one_le_count_iff.mpr hu
        have := hsplit u
        have : 1 ≤ (heldUrls st).count u := by omega
        exact h2 u (List.one_le_count_iff.mp this)
      · intro u
        have := hsplit u
        have := h3 u
        omega
      · intro u hu
        rw [hrev, List.count_append]
        have hpos := List.one_le_count_iff.mpr hu
        have hs := hsplit u
        have hle := h3 u
        have hmem : u ∈ heldUrls st := by
          refine List.one_le_count_iff.mp ?_
          omega
        have hz := h4 u hmem
        have hx : (itemUrls x).count u = 0 := by omega
        omega
      · intro u hu hnot
        rw [hrev, List.count_append]
        rw [hcreated] at hu
        have hz : (heldUrls (deleteItem id st)).count u = 0 := List.count_eq_zero.mpr hnot
        have hs := hsplit u
        have hle := h3 u
        by_cases hm : u ∈ heldUrls st
        · have h1c := List.one_le_count_iff.mpr hm
          have hrev0 := h4 u hm
          omega
        · have hz2 : (heldUrls st).count u = 0 := List.count_eq_zero.mpr hm
          have hrev1 := h5 u hu hm
          omega
      · intro u hu
        rw [hnext]
        rw [hrev] at hu
        rcases List.mem_append.mp hu with hm | hm
        · exact h6 u hm
        · have h1c := List.one_le_count_iff.mpr hm
          have hs := hsplit u
          have hmem : u ∈ heldUrls st := by
            refine List.one_le_count_iff.mp ?_
            omega
          exact h1 u (h2 u hmem)
      · rw [hporig]
        exact h7
      · rw [hpwebp]
        exact h8
      · intro it hmem
        rw [hitems] at hmem
        exact h9 it (mem_of_mem_eraseIdx st.items idx it hmem)

theorem clearAll_revoked_eq (st : QueueState) (h7 : st.previewOrigUrl = none)
    (h8 : st.previewWebpUrl = none) :
    (clearAll st).revokedUrls = st.revokedUrls ++ heldUrls st := by
  show st.revokedUrls ++ st.items.flatMap itemUrls
      ++ st.previewOrigUrl.toList ++ st.previewWebpUrl.toList = _
  rw [h7, h8]
  simp [heldUrls]

theorem urlInv_clear (st : QueueState) (h : UrlInv st) : UrlInv (clearAll st) := by
  obtain ⟨h1, h2, h3, h4, h5, h6, h7, h8, h9⟩ := h
  have hrev := clearAll_revoked_eq st h7 h8
  have hheld : heldUrls (clearAll st) = [] := rfl
  refine ⟨?_, ?_, ?_, ?_, ?_, ?_, rfl, rfl, ?_⟩
  · intro u hu
    exact h1 u hu
  · intro u hu
    rw [hheld] at hu
    simp at hu
  · intro u
    rw [hheld]
    simp
  · intro u hu
    rw [hheld] at hu
    simp at hu
  · intro u hu _
    rw [hrev, List.count_append]
    by_cases hm : u ∈ heldUrls st
    · have h1c := List.one_le_count_iff.mpr hm
      have hle := h3 u
      have hz := h4 u hm
      omega
    · have hz : (heldUrls st).count u = 0 := List.count_eq_zero.mpr hm
      have := h5 u hu hm
      omega
  · intro u hu
    rw [hrev] at hu
    rcases List.mem_append.mp hu with hm | hm
    · exact h6 u hm
    · exact h1 u (h2 u hm)
  · intro it hmem
    simp [clearAll] at hmem

theorem urlInv_zip (st : QueueState) (h : UrlInv st) : UrlInv (downloadAllZip st).1 := by
  by_cases he : (zipEntriesGo st.items).isEmpty = true
  · have hsame : (downloadAllZip st).1 = st := by
      simp [downloadAllZip, he]
    rw [hsame]
    exact h
  · obtain ⟨h1, h2, h3, h4, h5, h6, h7, h8, h9⟩ := h
    have hitems : (downloadAllZip st).1.items = st.items := downloadAllZip_items st
    have hcreated : (downloadAllZip st).1.itemUrlsCreated = st.itemUrlsCreated := by
      simp [downloadAllZip, he]
    have hnext : (downloadAllZip st).1.nextUrl = st.nextUrl + 1 := by
      simp [downloadAllZip, he]
    have hrev : (downloadAllZip st).1.revokedUrls = st.revokedUrls := by
      simp [downloadAllZip, he]
    have hporig : (downloadAllZip st).1.previewOrigUrl = st.previewOrigUrl := by
      simp [downloadAllZip, he]
    have hpwebp : (downloadAllZip st).1.previewWebpUrl = st.previewWebpUrl := by
      simp [downloadAllZip, he]
    have hheld : heldUrls (downloadAllZip st).1 = heldUrls st := by
      rw [heldUrls, hitems]
      rfl
    refine ⟨?_, ?_, ?_, ?_, ?_, ?_, ?_, ?_, ?_⟩
    · intro u hu
      rw [hcreated] at hu
      rw [hnext]
      have := h1 u hu
      omega
    · intro u hu
      rw [hheld] at hu
      rw [hcreated]
      exact h2 u hu
    · intro u
      rw [hheld]
      exact h3 u
    · intro u hu
      rw [hheld] at hu
      rw [hrev]
      exact h4 u hu
    · intro u hu hnot
      rw [hcreated] at hu
      rw [hheld] at hnot
      rw [hrev]
      exact h5 u hu hnot
    · intro u hu
      rw [hrev] at hu
      rw [hnext]
      have := h6 u hu
      omega
    · rw [hporig]
      exact h7
    · rw [hpwebp]
      exact h8
    · intro it hmem
      rw [hitems] at hmem
      exact h9 it hmem

theorem urlInv_select (id : Nat) (st : QueueState) (h : UrlInv st) :
    UrlInv (selectPreviewItem id st) := by
  cases hf : st.items.find? (fun it => it.id == id) with
  | none =>
    have hsame : selectPreviewItem id st = st := by
      rw [selectPreviewItem, hf]
    rw [hsame]
    exact h
  | some x =>
    have hsh : selectPreviewItem id st =
        { st with selectedPreview :=
            if x.status = UploadStatus.error then none else some x.id } := by
      rw [selectPreviewItem, hf]
    rw [hsh]
    exact h

theorem step_urlInv (op : Op) (st : QueueState) (hnp : isPreviewOp op = false)
    (h : UrlInv st) : UrlInv (step op st).1 := by
  cases op with
  | files fs => exact urlInv_files fs st h
  | convert conv => exact urlInv_convert conv st h
  | delete id => exact urlInv_delete id st h
  | clear => exact urlInv_clear st h
  | zipAll => exact urlInv_zip st h
  | select id => exact urlInv_select id st h
  | preview res => simp [isPreviewOp] at hnp

theorem urlInv_init : UrlInv initState := by
  refine ⟨?_, ?_, ?_, ?_, ?_, ?_, rfl, rfl, ?_⟩ <;>
    simp [initState, heldUrls]

theorem run_append_state : ∀ (ops1 ops2 : List Op) (st : QueueState),
    (run (ops1 ++ ops2) st).1 = (run ops2 (run ops1 st).1).1 := by
  intro ops1
  induction ops1 with
  | nil => intro ops2 st; rfl
  | cons op rest ih =>
    intro ops2 st
    simp only [List.cons_append, run]
    exact ih ops2 (step op st).1

theorem run_urlInv : ∀ (ops : List Op) (st : QueueState),
    ops.all (fun op => !isPreviewOp op) = true → UrlInv st → UrlInv (run ops st).1 := by
  intro ops
  induction ops with
  | nil => intro st _ h; exact h
  | cons op rest ih =>
    intro st hall h
    rw [List.all_cons, Bool.and_eq_true] at hall
    have hop : isPreviewOp op = false := by
      have := hall.1
      cases hh : isPreviewOp op
      · rfl
      · rw [hh] at this
        simp at this
    exact ih (step op st).1 hall.2 (step_urlInv op st hop h)

/-- C4 (amended): in any session made of the queue operations (`handleFiles`,
`convertAll`, `deleteItem`, `clearAll`, `downloadAllZip`, preview selection)
WITHOUT runs of the preview component's effect, after `clearAll` the item
list is empty, the preview selection is cleared, and every thumbnail and
output object URL created during the session has been revoked exactly once.
(With preview activity this fails: the effect leaks superseded preview URLs —
see the counterexample — and download-trigger URLs are revoked on a delay.) -/
theorem clearAll_spec (ops : List Op)
    (hops : ops.all (fun op => !isPreviewOp op) = true) :
    ((run (ops ++ [Op.clear]) initState).1.items = []) ∧
    ((run (ops ++ [Op.clear]) initState).1.selectedPreview = none) ∧
    (∀ u ∈ (run (ops ++ [Op.clear]) initState).1.itemUrlsCreated,
      (run (ops ++ [Op.clear]) initState).1.revokedUrls.count u = 1) := by
  have hrun : (run (ops ++ [Op.clear]) initState).1 =
      clearAll (run ops initState).1 := run_append_state ops [Op.clear] initState
  obtain ⟨h1, h2, h3, h4, h5, h6, h7, h8, h9⟩ := run_urlInv ops initState hops urlInv_init
  rw [hrun]
  refine ⟨rfl, rfl, ?_⟩
  intro u hu
  have hcreated : (clearAll (run ops initState).1).itemUrlsCreated =
      (run ops initState).1.itemUrlsCreated := rfl
  rw [hcreated] at hu
  rw [clearAll_revoked_eq (run ops initState).1 h7 h8, List.count_append]
  by_cases hm : u ∈ heldUrls (run ops initState).1
  · have h1c := List.one_le_count_iff.mpr hm
    have hle := h3 u
    have hz := h4 u hm
    omega
  · have hz : (heldUrls (run ops initState).1).count u = 0 := List.count_eq_zero.mpr hm
    have := h5 u hu hm
    omega

theorem clearAll_spec_witness :
    ([Op.files [fileA, fileG], Op.convert convOk,
        Op.delete 0].all (fun op => !isPreviewOp op) = true) ∧
    ((run ([Op.files [fileA, fileG], Op.convert convOk, Op.delete 0] ++ [Op.clear])
        initState).1.items = []) :=
  ⟨by decide,
   (clearAll_spec [Op.files [fileA, fileG], Op.convert convOk, Op.delete 0] (by decide)).1⟩

end Webpify
